import Mathlib

/-!
Shallow embedding of the ParamTools parameter-management engine.

The repository exhibits the engine through two notebooks
(src/unnamed/part_000 and src/docs/Extend example.ipynb); the engine's own
implementation (paramtools/parameters.py) is not among the provided source
files, so the definitions below are modelled from the specification
(spec.md sections 3, 4.2, 4.4, 4.5, 4.6) and checked against the concrete
inputs and outputs exhibited in the notebooks.  Numeric parameter values
are modelled as rationals; every value exhibited in the notebooks is
exactly representable.
-/

namespace ParamTools

/-- Modelled from the spec: a label value is either an integer (e.g. a
policy year) or a string (e.g. a marital status); spec section 3 (Label:
value type integer, string, ...). -/
inductive LVal where
  | i (n : Int)
  | s (v : String)
deriving DecidableEq, Repr

/-- Modelled from the spec: a ValueRecord is an exact assignment of a value
to one combination of label values for one parameter (spec section 3,
ValueRecord); labels are kept as an association list from label name to
label value. -/
structure VRec where
  labels : List (String × LVal)
  value : Rat
deriving DecidableEq, Repr

/-- Lookup of a label's value in an association list of labels. -/
def lookupL (lbls : List (String × LVal)) (name : String) : Option LVal :=
  lbls.lookup name

/-- Modelled from the spec: a partial adjustment record matches a stored
record when the stored record agrees with it on every label the partial
record specifies; unspecified labels act as wildcards (spec section 4.4). -/
def matchesRec (spec : List (String × LVal)) (r : VRec) : Bool :=
  spec.all (fun lv => lookupL r.labels lv.1 == some lv.2)

/-- Stated from the spec's words, for comparison with the executable
matcher: a stored record agrees with a partial record on the specified
labels when every specified label is present in the record with the
specified value (spec section 4.4). -/
def agreesOn (spec : List (String × LVal)) (r : VRec) : Prop :=
  ∀ lv ∈ spec, lookupL r.labels lv.1 = some lv.2

instance (spec : List (String × LVal)) (r : VRec) :
    Decidable (agreesOn spec r) :=
  List.decidableBAll _ spec

/-- Modelled from the spec: applying one partial record writes the new
value into every stored record agreeing on the specified labels and leaves
all other records unchanged (spec section 4.4). -/
def applyPartial (spec : List (String × LVal)) (v : Rat) (recs : List VRec) :
    List VRec :=
  recs.map (fun r => if matchesRec spec r then ⟨r.labels, v⟩ else r)

/-! ## Extender (spec section 4.2) -/

/-- Extend-dimension value of a record, when the record carries the extend
label with an integer value. -/
def extVal (ext : String) (r : VRec) : Option Int :=
  match lookupL r.labels ext with
  | some (LVal.i n) => some n
  | _ => none

/-- Tuple of a record's non-extend label values, used to group records for
extension (spec section 4.2: group explicit records by the tuple of
non-extend label values). -/
def tupleOf (ext : String) (r : VRec) : List (String × LVal) :=
  r.labels.filter (fun lv => lv.1 ≠ ext)

/-- Value attached to an extend-dimension point in a group's explicit
points, if any. -/
def lookupPt (explicit : List (Int × Rat)) (d : Int) : Option Rat :=
  explicit.lookup d

/-- Modelled from the spec: scan of the ordered extend-dimension domain
carrying the most recently seen explicit value; an explicit point replaces
the carried value, a gap replicates the carried value forward (spec
section 4.2 forward fill). -/
def fillFrom (explicit : List (Int × Rat)) : Rat → List Int → List (Int × Rat)
  | _, [] => []
  | cur, d :: ds =>
    match lookupPt explicit d with
    | some v => (d, v) :: fillFrom explicit v ds
    | none => (d, cur) :: fillFrom explicit cur ds

/-- Value of the earliest explicit point of a group within the ordered
domain; seeds the scan so that every domain value before the first explicit
point replicates it backward (spec section 4.2 backward fill). -/
def firstExplicit (explicit : List (Int × Rat)) (domain : List Int) :
    Option Rat :=
  domain.findSome? (fun d => lookupPt explicit d)

/-- Modelled from the spec: produce one (domain value, value) pair for
every value of the ordered extend-dimension domain, filling gaps before the
first explicit point backward and all other gaps forward from the nearest
preceding explicit point (spec section 4.2). -/
def fillGroup (explicit : List (Int × Rat)) (domain : List Int) :
    List (Int × Rat) :=
  match firstExplicit explicit domain with
  | none => []
  | some v0 => fillFrom explicit v0 domain

/-- Stated from the spec's words, for comparison with the fill scan: the
value of the nearest preceding explicit point of an ordered domain: the
last domain value not exceeding the queried value that carries an explicit
point (spec sections 4.2 and 8, forward fill). -/
def nearestPreceding (explicit : List (Int × Rat)) (domain : List Int)
    (d : Int) : Option Rat :=
  ((domain.filter (fun e => e ≤ d)).filterMap (lookupPt explicit)).getLast?

/-- Explicit extend-dimension points of one non-extend-label group. -/
def explicitOf (ext : String) (recs : List VRec)
    (g : List (String × LVal)) : List (Int × Rat) :=
  recs.filterMap (fun r =>
    if tupleOf ext r = g then (extVal ext r).map (fun d => (d, r.value))
    else none)

/-- First-occurrence deduplication, used to list a parameter's non-extend
label groups in order of first appearance. -/
def firstDedup {α : Type _} [DecidableEq α] (l : List α) : List α :=
  l.foldl (fun acc a => if a ∈ acc then acc else acc ++ [a]) []

/-- Groups of a parameter's records by non-extend label tuple, in order of
first appearance (spec section 4.2: group explicit records by the tuple of
non-extend label values). -/
def groupsOf (ext : String) (recs : List VRec) : List (List (String × LVal)) :=
  firstDedup (recs.map (tupleOf ext))

/-- Full record rebuilt from a group tuple, an extend-dimension value and a
value. -/
def mkRec (ext : String) (g : List (String × LVal)) (d : Int) (v : Rat) :
    VRec :=
  ⟨g ++ [(ext, LVal.i d)], v⟩

/-- Modelled from the spec: the Extender produces, for every combination of
non-extend label values appearing in the explicit records, a record for
every value of the extend-dimension domain, by backward/forward fill (spec
section 4.2). -/
def extendParam (ext : String) (domain : List Int) (recs : List VRec) :
    List VRec :=
  (groupsOf ext recs).flatMap (fun g =>
    (fillGroup (explicitOf ext recs g) domain).map
      (fun p => mkRec ext g p.1 p.2))

/-- Extend-dimension (value, stored value) pairs carried by a list of
records; records not carrying the extend label are skipped. -/
def extractPairs (ext : String) (recs : List VRec) : List (Int × Rat) :=
  recs.filterMap (fun r => (extVal ext r).map (fun d => (d, r.value)))

/-! ## Grid projection (spec section 4.5) -/

/-- Modelled from the spec: StateView, a mapping from each label to the
ordered list of values currently selected for it (spec section 3). -/
abbrev StateView : Type := List (String × List LVal)

/-- Ordered label-value combinations of a parameter under a StateView: the
cartesian product of the selected values of each of the parameter's labels,
in the parameter's declared axis order (spec section 4.5). -/
def labelCombos (sv : StateView) : List String → List (List (String × LVal))
  | [] => [[]]
  | l :: ls =>
    (((sv.lookup l).getD []).flatMap (fun v =>
      (labelCombos sv ls).map (fun c => (l, v) :: c)))

/-- Value stored for one full label combination, if present. -/
def findValue (recs : List VRec) (c : List (String × LVal)) : Option Rat :=
  (recs.find? (fun r => matchesRec c r)).map (fun r => r.value)

/-- Modelled from the spec: toGrid returns the dense row-major list of
values over the ordered label-value combinations of the current StateView;
it fails (IncompleteProjection) when any combination is missing from the
store (spec section 4.5). -/
def toGrid (sv : StateView) (plabels : List String) (recs : List VRec) :
    Option (List Rat) :=
  (labelCombos sv plabels).mapM (fun c => findValue recs c)

/-- Modelled from the spec: fromGrid re-derives the ordered label-value
combinations from the StateView and zips them with the grid's cells,
producing one full record per grid cell (spec section 4.5). -/
def fromGrid (sv : StateView) (plabels : List String) (grid : List Rat) :
    List VRec :=
  ((labelCombos sv plabels).zip grid).map (fun p => ⟨p.1, p.2⟩)

/-! ## AdjustmentEngine (spec section 4.4) and validation (section 7) -/

/-- Modelled from the spec: per-parameter schema metadata consulted during
validation: the ordered label list (axis order) and the declared range
validator bounds (spec sections 3 and 4.1). -/
structure ParamMeta where
  plabels : List String
  vmin : Option Rat
  vmax : Option Rat
deriving DecidableEq, Repr

/-- Modelled from the spec: a raw adjustment value as supplied by the
caller, either numeric or text still to be coerced to the parameter's
declared numeric type (spec section 7, TypeCoercionError). -/
inductive Raw where
  | num (q : Rat)
  | str (s : String)
deriving DecidableEq, Repr

/-- Numeric value of one decimal digit character. -/
def digitVal (c : Char) : Option Nat :=
  if c.isDigit then some (c.toNat - 48) else none

/-- Decimal reading of a digit string; fails on an empty string or any
non-digit character. -/
def parseDigits (cs : List Char) : Option Nat :=
  if cs.isEmpty then none
  else cs.foldl (fun acc c =>
    acc.bind (fun n => (digitVal c).map (fun d => n * 10 + d))) (some 0)

/-- Decimal reading of an unsigned numeric string, with an optional single
decimal point. -/
def parseRatPos (cs : List Char) : Option Rat :=
  match cs.splitOn '.' with
  | [w] => (parseDigits w).map (fun n => (n : Rat))
  | [w, f] =>
    (parseDigits w).bind (fun n =>
      (parseDigits f).map (fun m => (n : Rat) + (m : Rat) / ((10 ^ f.length : Nat) : Rat)))
  | _ => none

/-- Modelled from the spec: coercion of caller-supplied text to the
declared numeric type; fails on non-numeric text such as higher (spec
section 7, TypeCoercionError; exhibited message Not a valid number:
higher). -/
def parseRat (s : String) : Option Rat :=
  match s.toList with
  | '-' :: rest => (parseRatPos rest).map (fun q => -q)
  | cs => parseRatPos cs

/-- Coercion of a raw adjustment value to the numeric value type. -/
def coerceNum (r : Raw) : Option Rat :=
  match r with
  | Raw.num q => some q
  | Raw.str s => parseRat s

/-- Modelled from the spec: a ValidationError collected (not raised
immediately) during adjustment: a type-coercion failure, or a range
violation below the declared minimum or above the declared maximum
(spec sections 3 and 7). -/
inductive VError where
  | typeCoercion (raw : String)
  | rangeMin (lbls : List (String × LVal)) (v : Rat) (mn : Rat)
  | rangeMax (lbls : List (String × LVal)) (v : Rat) (mx : Rat)
deriving DecidableEq, Repr

/-- Modelled from the spec: one partial adjustment record: a subset of the
parameter's labels plus a new raw value (spec section 3, Adjustment). -/
structure PartialRec where
  labels : List (String × LVal)
  value : Raw
deriving DecidableEq, Repr

/-- Modelled from the spec: a parameter's adjustment is either a bare
scalar replacing all records or an ordered list of partial records (spec
section 3, Adjustment). -/
inductive Adj where
  | scalar (r : Raw)
  | partials (ps : List PartialRec)
deriving DecidableEq, Repr

/-- State threaded through one parameter's adjustment: current records,
collected errors, and the validated (labels, value) updates applied so
far. -/
structure AdjState where
  recs : List VRec
  errs : List VError
  applied : List (List (String × LVal) × Rat)
deriving DecidableEq, Repr

/-- Text form of a raw value, reported by a coercion failure. -/
def rawText : Raw → String
  | Raw.num _ => ""
  | Raw.str s => s

/-- Check of a coerced value against a declared maximum bound, if any. -/
def rangeErrorMax (mx? : Option Rat) (lbls : List (String × LVal))
    (v : Rat) : Option VError :=
  match mx? with
  | some mx => if mx < v then some (VError.rangeMax lbls v mx) else none
  | none => none

/-- Modelled from the spec: check of a coerced value against the declared
range validator, reporting a violation of the minimum or the maximum bound
(spec sections 3 and 7, RangeViolation). -/
def rangeError (meta : ParamMeta) (lbls : List (String × LVal))
    (v : Rat) : Option VError :=
  match meta.vmin with
  | some mn =>
    if v < mn then some (VError.rangeMin lbls v mn)
    else rangeErrorMax meta.vmax lbls v
  | none => rangeErrorMax meta.vmax lbls v

/-- Modelled from the spec: processing of one partial record: the raw
value is coerced and validated before being written; a coercion or range
failure is collected and the records are left untouched by that entry,
otherwise the update is applied to every matching stored record (spec
section 4.4). -/
def stepPartial (meta : ParamMeta) (st : AdjState) (p : PartialRec) :
    AdjState :=
  match coerceNum p.value with
  | none =>
    { st with errs := st.errs ++ [VError.typeCoercion (rawText p.value)] }
  | some v =>
    match rangeError meta p.labels v with
    | some e => { st with errs := st.errs ++ [e] }
    | none =>
      { recs := applyPartial p.labels v st.recs,
        errs := st.errs,
        applied := st.applied ++ [(p.labels, v)] }

/-- Modelled from the spec: a bare scalar adjustment synthesizes one
partial record per currently-stored record, all carrying the same new
value (spec section 4.4, full overwrite). -/
def synthScalar (recs : List VRec) (r : Raw) : List PartialRec :=
  recs.map (fun rec => ⟨rec.labels, r⟩)

/-- Modelled from the spec: one parameter's adjustment pass, folding the
partial records (synthesized from the scalar form when needed) in input
order through coercion, validation and merging (spec section 4.4). -/
def adjustParamRecs (meta : ParamMeta) (recs : List VRec) (adj : Adj) :
    AdjState :=
  let ps := match adj with
    | Adj.scalar r => synthScalar recs r
    | Adj.partials ps => ps
  ps.foldl (stepPartial meta) ⟨recs, [], []⟩

/-! ## Re-extension of an adjustment (spec section 4.4, extendAdjustment) -/

/-- Non-extend labels specified by a partial record. -/
def nonExtLabels (ext : String) (lbls : List (String × LVal)) :
    List (String × LVal) :=
  lbls.filter (fun lv => lv.1 ≠ ext)

/-- Extend-dimension value specified by a partial record's labels, when
present with an integer value. -/
def extOfLabels (ext : String) (lbls : List (String × LVal)) : Option Int :=
  match lookupL lbls ext with
  | some (LVal.i n) => some n
  | _ => none

/-- Whether an applied update touches a given non-extend label group: its
specified non-extend labels must all agree with the group (unspecified
labels are wildcards, spec section 4.4). -/
def touchesGroup (ext : String) (g : List (String × LVal))
    (lbls : List (String × LVal)) : Bool :=
  (nonExtLabels ext lbls).all (fun lv => lookupL g lv.1 == some lv.2)

/-- Insertion of an adjusted extend-dimension point, replacing an earlier
point at the same extend value (spec section 4.4: the later entry in input
order wins). -/
def insertPt (acc : List (Int × Rat)) (p : Int × Rat) : List (Int × Rat) :=
  if (lookupPt acc p.1).isSome then
    acc.map (fun q => if q.1 = p.1 then p else q)
  else acc ++ [p]

/-- Extend-dimension points explicitly adjusted for one non-extend label
group, accumulated from the validated updates in input order. -/
def adjustedPts (ext : String) (g : List (String × LVal))
    (applied : List (List (String × LVal) × Rat)) : List (Int × Rat) :=
  applied.foldl (fun acc a =>
    if touchesGroup ext g a.1 then
      match extOfLabels ext a.1 with
      | some d => insertPt acc (d, a.2)
      | none => acc
    else acc) []

/-- Earliest domain value carrying an explicit point. -/
def firstKey (explicit : List (Int × Rat)) (domain : List Int) : Option Int :=
  domain.find? (fun d => (lookupPt explicit d).isSome)

/-- Whether a record sits strictly below a given extend-dimension value
(records not carrying the extend label are kept). -/
def keepBelow (ext : String) (m : Int) (r : VRec) : Bool :=
  match extVal ext r with
  | some d => decide (d < m)
  | none => true

/-- Modelled from the spec: one group's records after re-extension: the
merged records below the earliest adjusted extend value are kept, the rest
of the active domain is refilled from the adjusted points alone (spec
section 4.4). -/
def reExtendGroup (ext : String) (domain : List Int) (merged : List VRec)
    (a : List (Int × Rat)) (g : List (String × LVal)) : List VRec :=
  match firstKey a domain with
  | none => merged.filter (fun r => decide (tupleOf ext r = g))
  | some m =>
    (merged.filter (fun r =>
      decide (tupleOf ext r = g) && keepBelow ext m r)) ++
    (fillGroup a (domain.filter (fun d => m ≤ d))).map
      (fun p => mkRec ext g p.1 p.2)

/-- Modelled from the spec: after merging, every group of the parameter is
re-extended from its explicitly-adjusted points (spec section 4.4). -/
def reExtendParam (ext : String) (domain : List Int)
    (applied : List (List (String × LVal) × Rat)) (merged : List VRec) :
    List VRec :=
  (groupsOf ext merged).flatMap (fun g =>
    reExtendGroup ext domain merged (adjustedPts ext g applied) g)

/-! ## Store-level adjust (spec sections 4.4 and 7) -/

/-- Per-parameter data held by the store: schema metadata and the current
records. -/
structure ParamData where
  meta : ParamMeta
  recs : List VRec
deriving DecidableEq, Repr

/-- Modelled from the spec: the ValueStore, the single source of truth
mapping each parameter name to its metadata and records (spec section 2). -/
abbrev Store : Type := List (String × ParamData)

/-- Replacement of one parameter's records in the store. -/
def updateStore (store : Store) (name : String) (recs : List VRec) : Store :=
  store.map (fun p => if p.1 = name then (p.1, ⟨p.2.meta, recs⟩) else p)

/-- Modelled from the spec: store-level extension: when an extend label is
declared, every parameter having it among its labels is extended over the
domain; parameters without an extend dimension, or whose extend dimension
is not in their label set, are returned unchanged (spec section 4.2). -/
def extendStore (extLabel : Option String) (domain : List Int)
    (store : Store) : Store :=
  match extLabel with
  | none => store
  | some ext =>
    store.map (fun p =>
      if p.2.meta.plabels.contains ext then
        (p.1, ⟨p.2.meta, extendParam ext domain p.2.recs⟩)
      else p)

/-- Modelled from the spec: processing of one named parameter's adjustment:
merge the partial records, then, when extendAdjustment is set and the
parameter has the extend dimension among its labels, re-run the Extender
scoped to the active state; errors are tagged with the parameter name
(spec section 4.4). -/
def adjustOne (extLabel : Option String) (domain : List Int)
    (extendAdj : Bool) (store : Store) (entry : String × Adj) :
    Store × List (String × VError) :=
  match store.lookup entry.1 with
  | none => (store, [])
  | some pd =>
    let st := adjustParamRecs pd.meta pd.recs entry.2
    let final :=
      match extLabel with
      | some ext =>
        if extendAdj && pd.meta.plabels.contains ext then
          reExtendParam ext domain st.applied st.recs
        else st.recs
      | none => st.recs
    (updateStore store entry.1 final, st.errs.map (fun e => (entry.1, e)))

/-- Modelled from the spec: the full adjustment pass over every parameter
named in the adjustment map, accumulating per-parameter errors rather than
failing fast (spec sections 4.4 and 7). -/
def adjustCore (extLabel : Option String) (domain : List Int)
    (extendAdj : Bool) (store : Store) (adjs : List (String × Adj)) :
    Store × List (String × VError) :=
  adjs.foldl (fun st e =>
    let r := adjustOne extLabel domain extendAdj st.1 e
    (r.1, st.2 ++ r.2)) (store, [])

/-- Aggregation of collected errors grouped by parameter name, with
duplicate messages reported once (spec section 4.4: a single aggregated
error grouped by parameter name). -/
def groupErrors (errs : List (String × VError)) :
    List (String × List VError) :=
  (firstDedup (errs.map Prod.fst)).map (fun n =>
    (n, firstDedup (errs.filterMap (fun e =>
      if e.1 = n then some e.2 else none))))

/-- Outcome of an adjust call: the mutated store (valid entries applied in
place even when errors were collected), the aggregated error surfaced when
raiseErrors is set and errors were collected, and the raw collected
errors. -/
structure AdjustOutcome where
  store : Store
  raised : Option (List (String × List VError))
  errors : List (String × VError)
deriving DecidableEq, Repr

/-- Modelled from the spec: adjust(adjustmentMap, raiseErrors,
extendAdjustment): processes every parameter, leaves the mutations of
valid entries in place, and surfaces a single aggregated error grouped by
parameter name when raiseErrors is set and any error was collected (spec
section 4.4). -/
def adjust (extLabel : Option String) (domain : List Int) (store : Store)
    (adjs : List (String × Adj)) (raiseErrors : Bool) (extendAdj : Bool) :
    AdjustOutcome :=
  let r := adjustCore extLabel domain extendAdj store adjs
  { store := r.1,
    raised := if raiseErrors && !r.2.isEmpty then some (groupErrors r.2)
              else none,
    errors := r.2 }

/-! ## Query (spec section 4.6) -/

/-- Modelled from the spec: query returns the stored records whose label
values match all given filters, wildcarding unspecified labels (spec
section 4.6). -/
def queryRecs (filters : List (String × LVal)) (recs : List VRec) :
    List VRec :=
  recs.filter (fun r => matchesRec filters r)

/-- Modelled from the spec: loading a parameter's declared default value:
a bare scalar becomes exactly one record with no label keys, a list of
records is stored as given (spec section 6, value: scalar or
list-of-records). -/
def loadValue (v : Raw ⊕ List VRec) : Option (List VRec) :=
  match v with
  | Sum.inl r => (coerceNum r).map (fun q => [⟨[], q⟩])
  | Sum.inr rs => some rs

end ParamTools

namespace ParamTools

/-! ## Concrete scenario of src/docs/Extend example.ipynb -/

/-- Extend-dimension domain of the year label: 2013 through 2027
(range validator of the year label in the notebook schema). -/
def yearDomain : List Int := (List.range 15).map (fun i => 2013 + (i : Int))

/-- Default records of the standard_deduction parameter in
src/docs/Extend example.ipynb (explicit at 2017, 2018 and 2026). -/
def sdDefaults : List VRec :=
  [⟨[("year", LVal.i 2017), ("marital_status", LVal.s "single")], 6350⟩,
   ⟨[("year", LVal.i 2017), ("marital_status", LVal.s "joint")], 12700⟩,
   ⟨[("year", LVal.i 2018), ("marital_status", LVal.s "single")], 12000⟩,
   ⟨[("year", LVal.i 2018), ("marital_status", LVal.s "joint")], 24000⟩,
   ⟨[("year", LVal.i 2026), ("marital_status", LVal.s "single")], 7685⟩,
   ⟨[("year", LVal.i 2026), ("marital_status", LVal.s "joint")], 15369⟩]

/-- Full-domain StateView of the notebook: every year 2013-2027 and both
marital statuses. -/
def fullState : StateView :=
  [("year", yearDomain.map LVal.i),
   ("marital_status", [LVal.s "single", LVal.s "joint"])]

/-- Exhibited extended grid of standard_deduction
(src/docs/Extend example.ipynb, first output cell), row-major with the
year axis first. -/
def sdExpectedGrid : List Rat :=
  (List.replicate 5 [(6350 : Rat), 12700] ++
   List.replicate 8 [(12000 : Rat), 24000] ++
   List.replicate 2 [(7685 : Rat), 15369]).flatMap id

/-- Schema metadata of the standard_deduction parameter in
src/docs/Extend example.ipynb: axis order year then marital_status, range
validator min 0 and max 9e99. -/
def sdMeta : ParamMeta :=
  ⟨["year", "marital_status"], some 0, some ((9 * 10 ^ 99 : Nat) : Rat)⟩

/-- Store of the TaxParams instance of src/docs/Extend example.ipynb after
construction: the defaults extended over year 2013-2027. -/
def sdStore : Store :=
  [("standard_deduction", ⟨sdMeta, extendParam "year" yearDomain sdDefaults⟩)]

/-- Adjustment of the second cell of src/docs/Extend example.ipynb: 10000
at 2017 with marital_status unspecified, 15000 at 2020 for single, 20000
at 2021 for joint. -/
def sdAdjustment : List (String × Adj) :=
  [("standard_deduction", Adj.partials
    [⟨[("year", LVal.i 2017)], Raw.num 10000⟩,
     ⟨[("year", LVal.i 2020), ("marital_status", LVal.s "single")],
       Raw.num 15000⟩,
     ⟨[("year", LVal.i 2021), ("marital_status", LVal.s "joint")],
       Raw.num 20000⟩])]

/-- Exhibited grid after the adjustment (src/docs/Extend example.ipynb,
second output cell). -/
def sdAdjustedGrid : List Rat :=
  (List.replicate 4 [(6350 : Rat), 12700] ++
   List.replicate 3 [(10000 : Rat), 10000] ++
   [[(15000 : Rat), 10000]] ++
   List.replicate 7 [(15000 : Rat), 20000]).flatMap id

/-! ## Concrete scenario of src/unnamed/part_000 -/

/-- Default records of the standard_deduction parameter in
src/unnamed/part_000 (first notebook cell). -/
def p0Defaults : List VRec :=
  [⟨[("year", LVal.i 2024), ("marital_status", LVal.s "single")], Rat.divInt 1367368 100⟩,
   ⟨[("year", LVal.i 2024), ("marital_status", LVal.s "joint")], Rat.divInt 2734736 100⟩,
   ⟨[("year", LVal.i 2025), ("marital_status", LVal.s "single")], Rat.divInt 1396766 100⟩,
   ⟨[("year", LVal.i 2025), ("marital_status", LVal.s "joint")], Rat.divInt 2793533 100⟩,
   ⟨[("year", LVal.i 2026), ("marital_status", LVal.s "single")], (7690 : Rat)⟩,
   ⟨[("year", LVal.i 2026), ("marital_status", LVal.s "joint")], (15380 : Rat)⟩]

/-- Active state of the part_000 notebook: initial_state year 2024-2026,
both marital statuses selected. -/
def p0State : StateView :=
  [("year", [LVal.i 2024, LVal.i 2025, LVal.i 2026]),
   ("marital_status", [LVal.s "single", LVal.s "joint"])]

/-- Store of the part_000 notebook after construction (no extend
dimension is declared there). -/
def p0Store : Store :=
  [("standard_deduction", ⟨sdMeta, p0Defaults⟩)]

/-- Exhibited grid of part_000 before any adjustment (third cell). -/
def p0Grid : List Rat :=
  [Rat.divInt 1367368 100, Rat.divInt 2734736 100, Rat.divInt 1396766 100, Rat.divInt 2793533 100, (7690 : Rat), (15380 : Rat)]

/-- Store of part_000 after the scalar-0 adjustment: every record of
standard_deduction overwritten with 0 (seventh cell). -/
def p0ZeroStore : Store :=
  (adjust none [] p0Store [("standard_deduction", Adj.scalar (Raw.num 0))]
    true true).store

end ParamTools

namespace ParamTools

/-! ## Association-list lemmas -/

lemma lookup_cons_self {α β : Type _} [DecidableEq α] (k : α) (b : β)
    (t : List (α × β)) : ((k, b) :: t).lookup k = some b := by
  simp [List.lookup]

lemma lookup_cons_ne {α β : Type _} [DecidableEq α] {k a : α} (b : β)
    (t : List (α × β)) (h : k ≠ a) :
    ((a, b) :: t).lookup k = t.lookup k := by
  simp [List.lookup, beq_false_of_ne h]

lemma mem_of_lookupSome {α β : Type _} [DecidableEq α] {l : List (α × β)}
    {k : α} {v : β} (h : l.lookup k = some v) : (k, v) ∈ l := by
  induction l with
  | nil => simp [List.lookup] at h
  | cons p t ih =>
    obtain ⟨a, b⟩ := p
    by_cases hk : k = a
    · subst hk
      rw [lookup_cons_self] at h
      cases h
      exact List.mem_cons_self _ _
    · rw [lookup_cons_ne b t hk] at h
      exact List.mem_cons_of_mem _ (ih h)

lemma lookupSome_of_mem_keys {α β : Type _} [DecidableEq α]
    {l : List (α × β)} {k : α} (h : k ∈ l.map Prod.fst) :
    (l.lookup k).isSome := by
  induction l with
  | nil => simp at h
  | cons p t ih =>
    obtain ⟨a, b⟩ := p
    by_cases hk : k = a
    · subst hk; rw [lookup_cons_self]; rfl
    · rw [lookup_cons_ne b t hk]
      refine ih ?_
      rcases List.mem_map.mp h with ⟨q, hq, hfst⟩
      rcases List.mem_cons.mp hq with rfl | hqt
      · exact absurd hfst.symm hk
      · exact List.mem_map.mpr ⟨q, hqt, hfst⟩

lemma lookup_eq_some_of_mem_nodup {α β : Type _} [DecidableEq α]
    {l : List (α × β)} (hn : (l.map Prod.fst).Nodup) {k : α} {v : β}
    (hm : (k, v) ∈ l) : l.lookup k = some v := by
  induction l with
  | nil => simp at hm
  | cons p t ih =>
    obtain ⟨a, b⟩ := p
    simp only [List.map_cons, List.nodup_cons] at hn
    rcases List.mem_cons.mp hm with h | h
    · obtain ⟨h1, h2⟩ := Prod.mk.inj h
      subst h1; subst h2
      exact lookup_cons_self k v t
    · have hka : k ≠ a := by
        rintro rfl
        exact hn.1 (List.mem_map.mpr ⟨(k, v), h, rfl⟩)
      rw [lookup_cons_ne b t hka]
      exact ih hn.2 h

lemma lookup_append_left_none {α β : Type _} [DecidableEq α]
    {l₁ l₂ : List (α × β)} {k : α} (h : ∀ p ∈ l₁, p.1 ≠ k) :
    (l₁ ++ l₂).lookup k = l₂.lookup k := by
  rw [List.lookup_append]
  have h0 : l₁.lookup k = none := by
    rw [List.lookup_eq_none_iff]
    intro p hp
    simpa using (h p hp).symm
  simp [h0]

/-! ## Fill characterization (spec sections 4.2 and 8) -/

lemma fillFrom_lookup (explicit : List (Int × Rat)) :
    ∀ (ds : List Int) (cur : Rat), List.Chain' (· < ·) ds → ∀ d ∈ ds,
      lookupPt (fillFrom explicit cur ds) d =
        some ((nearestPreceding explicit ds d).getD cur) := by
  intro ds
  induction ds with
  | nil => intro cur _ d hd; cases hd
  | cons d0 rest ih =>
    intro cur hchain d hd
    have hpw := List.chain'_iff_pairwise.mp hchain
    have hlt : ∀ e ∈ rest, d0 < e := fun e he =>
      List.rel_of_pairwise_cons hpw he
    have hchain2 : List.Chain' (· < ·) rest :=
      List.chain'_iff_pairwise.mpr (List.Pairwise.of_cons hpw)
    rcases List.mem_cons.mp hd with rfl | hdrest
    · have hfilter : rest.filter (fun e => decide (e ≤ d)) = [] := by
        rw [List.filter_eq_nil_iff]
        intro e he
        simpa using not_le.mpr (hlt e he)
      simp only [fillFrom]
      cases hE : lookupPt explicit d with
      | some v =>
        have h1 : lookupPt ((d, v) :: fillFrom explicit v rest) d = some v :=
          lookup_cons_self d v _
        have h2 : nearestPreceding explicit (d :: rest) d = some v := by
          simp [nearestPreceding, List.filter_cons, hfilter,
            List.filterMap_cons, hE]
        rw [h1, h2]
        rfl
      | none =>
        have h1 : lookupPt ((d, cur) :: fillFrom explicit cur rest) d =
            some cur := lookup_cons_self d cur _
        have h2 : nearestPreceding explicit (d :: rest) d = none := by
          simp [nearestPreceding, List.filter_cons, hfilter,
            List.filterMap_cons, hE]
        rw [h1, h2]
        rfl
    · have hne : d ≠ d0 := fun h => absurd (h ▸ hlt d hdrest) (lt_irrefl d)
      have hle : d0 ≤ d := le_of_lt (hlt d hdrest)
      simp only [fillFrom]
      cases hE : lookupPt explicit d0 with
      | some v =>
        have hskip : lookupPt ((d0, v) :: fillFrom explicit v rest) d =
            lookupPt (fillFrom explicit v rest) d :=
          lookup_cons_ne v _ hne
        rw [hskip, ih v hchain2 d hdrest]
        have h2 : nearestPreceding explicit (d0 :: rest) d =
            some ((nearestPreceding explicit rest d).getD v) := by
          simp [nearestPreceding, List.filter_cons, hle,
            List.filterMap_cons, hE, List.getLast?_cons]
        rw [h2]
        rfl
      | none =>
        have hskip : lookupPt ((d0, cur) :: fillFrom explicit cur rest) d =
            lookupPt (fillFrom explicit cur rest) d :=
          lookup_cons_ne cur _ hne
        rw [hskip, ih cur hchain2 d hdrest]
        have h2 : nearestPreceding explicit (d0 :: rest) d =
            nearestPreceding explicit rest d := by
          simp [nearestPreceding, List.filter_cons, hle,
            List.filterMap_cons, hE]
        rw [h2]

lemma fillGroup_lookup {explicit : List (Int × Rat)} {domain : List Int}
    {v0 : Rat} (hchain : List.Chain' (· < ·) domain) {d : Int}
    (hd : d ∈ domain) (h0 : firstExplicit explicit domain = some v0) :
    lookupPt (fillGroup explicit domain) d =
      some ((nearestPreceding explicit domain d).getD v0) := by
  rw [fillGroup, h0]
  exact fillFrom_lookup explicit domain v0 hchain d hd

end ParamTools

namespace ParamTools

/-- Claim C1: for every parameter with an ordered extend dimension,
extension fills every domain value below the first explicit point with the
first explicit value (backward fill) and every other domain value with the
nearest preceding explicit value (forward fill); in particular the
exhibited defaults (2017: 6350/12700, 2018: 12000/24000, 2026: 7685/15369)
extend over 2013-2027 to the grid shown in src/docs/Extend example.ipynb. -/
theorem extend_backward_forward_fill :
    (∀ (explicit : List (Int × Rat)) (domain : List Int) (v0 : Rat) (d : Int),
        List.Chain' (· < ·) domain → d ∈ domain →
        firstExplicit explicit domain = some v0 →
        lookupPt (fillGroup explicit domain) d =
          some ((nearestPreceding explicit domain d).getD v0)) ∧
    toGrid fullState ["year", "marital_status"]
        (extendParam "year" yearDomain sdDefaults) = some sdExpectedGrid := by
  constructor
  · intro explicit domain v0 d h1 h2 h3
    exact fillGroup_lookup h1 h2 h3
  · decide

/-- Witness for claim C1's theorem at a concrete input: two explicit
points 2 and 4 over the domain 1-4; the value at 3 is the nearest
preceding explicit value. -/
theorem extend_backward_forward_fill_witness :
    lookupPt (fillGroup [((2 : Int), (5 : Rat)), (4, 9)] [1, 2, 3, 4]) 3 =
      some ((nearestPreceding [((2 : Int), (5 : Rat)), (4, 9)] [1, 2, 3, 4]
        3).getD 5) :=
  extend_backward_forward_fill.1 [((2 : Int), (5 : Rat)), (4, 9)] [1, 2, 3, 4]
    5 3 (by norm_num [List.chain'_cons]) (by decide) (by decide)

end ParamTools

namespace ParamTools

/-! ## Matching and adjustment lemmas (spec section 4.4) -/

lemma matchesRec_iff {spec : List (String × LVal)} {r : VRec} :
    matchesRec spec r = true ↔ agreesOn spec r := by
  simp [matchesRec, agreesOn, List.all_eq_true]

lemma matchesRec_labels (spec : List (String × LVal)) (lbls : List (String × LVal))
    (x y : Rat) : matchesRec spec ⟨lbls, x⟩ = matchesRec spec ⟨lbls, y⟩ := rfl

lemma matchesRec_self {r : VRec} (h : (r.labels.map Prod.fst).Nodup) :
    matchesRec r.labels r = true := by
  rw [matchesRec, List.all_eq_true]
  intro lv hlv
  have hm : (lv.1, lv.2) ∈ r.labels := by simpa using hlv
  have := lookup_eq_some_of_mem_nodup h hm
  simp [lookupL, this]

set_option maxRecDepth 10000 in
/-- Claim C6: a partial record updates exactly the stored records that
agree with it on the labels it specifies (unspecified labels are
wildcards); in particular the exhibited adjustment specifying only
year 2017 sets both marital statuses at 2017 to 10000. -/
theorem partial_adjustment_wildcards :
    (∀ (spec : List (String × LVal)) (v : Rat) (recs : List VRec) (i : Nat),
        (applyPartial spec v recs)[i]? =
          (recs[i]?).map (fun r =>
            if agreesOn spec r then ⟨r.labels, v⟩ else r)) ∧
    ((adjust (some "year") yearDomain sdStore sdAdjustment true
          true).store.lookup "standard_deduction").map (fun pd =>
        (queryRecs [("year", LVal.i 2017)] pd.recs).map (fun r => r.value)) =
      some [10000, 10000] := by
  constructor
  · intro spec v recs i
    rw [applyPartial, List.getElem?_map]
    cases h : recs[i]? with
    | none => rfl
    | some r =>
      simp only [Option.map_some']
      by_cases ha : agreesOn spec r
      · rw [if_pos (matchesRec_iff.mpr ha), if_pos ha]
      · rw [if_neg (fun hc => ha (matchesRec_iff.mp hc)), if_neg ha]
  · decide

end ParamTools

namespace ParamTools

lemma rangeError_none_any {meta : ParamMeta} {v : Rat}
    {l : List (String × LVal)} (h : rangeError meta l v = none)
    (l' : List (String × LVal)) : rangeError meta l' v = none := by
  rcases hmin : meta.vmin with _ | mn <;>
    rcases hmax : meta.vmax with _ | mx <;>
    simp only [rangeError, rangeErrorMax, hmin, hmax] at h ⊢ <;>
    split_ifs at h ⊢ <;> simp_all

lemma stepPartial_num {meta : ParamMeta} {q : Rat}
    {lbls : List (String × LVal)} (st : AdjState)
    (h : rangeError meta lbls q = none) :
    stepPartial meta st ⟨lbls, Raw.num q⟩ =
      ⟨applyPartial lbls q st.recs, st.errs, st.applied ++ [(lbls, q)]⟩ := by
  simp [stepPartial, coerceNum, h]

lemma scalar_fold (meta : ParamMeta) (q : Rat)
    (hq : ∀ lbls, rangeError meta lbls q = none) :
    ∀ (ls : List (List (String × LVal))) (st : AdjState),
      List.foldl (stepPartial meta)
          st (ls.map (fun l => (⟨l, Raw.num q⟩ : PartialRec))) =
        ⟨st.recs.map (fun r =>
            if ls.any (fun l => matchesRec l r) then ⟨r.labels, q⟩ else r),
         st.errs, st.applied ++ ls.map (fun l => (l, q))⟩ := by
  intro ls
  induction ls with
  | nil =>
    intro st
    simp
  | cons l ls ih =>
    intro st
    rw [List.map_cons, List.foldl_cons, stepPartial_num st (hq l), ih]
    refine congrArg₂ (fun a c => AdjState.mk a st.errs c) ?_ (by simp)
    rw [applyPartial, List.map_map]
    refine List.map_congr_left ?_
    intro r _
    by_cases hm : matchesRec l r
    · simp [Function.comp, hm, List.any_cons]
    · simp [Function.comp, hm, List.any_cons]

end ParamTools

namespace ParamTools

set_option maxRecDepth 10000 in
/-- Claim C7: a bare scalar adjustment synthesizes one partial record per
currently-stored record, all carrying the same value, which overwrites
every record (the labels are kept, every value becomes the scalar) and
collects no errors; in particular the exhibited scalar adjustment of 0 in
src/unnamed/part_000 turns the whole active grid to zeros. -/
theorem scalar_adjustment_overwrites :
    (∀ (meta : ParamMeta) (recs : List VRec) (q : Rat),
        rangeError meta [] q = none →
        (∀ r ∈ recs, (r.labels.map Prod.fst).Nodup) →
        adjustParamRecs meta recs (Adj.scalar (Raw.num q)) =
          ⟨recs.map (fun r => ⟨r.labels, q⟩), [],
           recs.map (fun r => (r.labels, q))⟩) ∧
    ((p0ZeroStore.lookup "standard_deduction").map (fun pd =>
        toGrid p0State ["year", "marital_status"] pd.recs) =
      some (some [0, 0, 0, 0, 0, 0])) := by
  constructor
  · intro meta recs q hq hnod
    have hq' : ∀ lbls, rangeError meta lbls q = none :=
      rangeError_none_any hq
    have hsyn : synthScalar recs (Raw.num q) =
        (recs.map (fun r => r.labels)).map
          (fun l => (⟨l, Raw.num q⟩ : PartialRec)) := by
      simp [synthScalar, List.map_map, Function.comp]
    rw [adjustParamRecs]
    simp only [hsyn]
    rw [scalar_fold meta q hq' (recs.map (fun r => r.labels)) ⟨recs, [], []⟩]
    simp only [List.map_map, Function.comp]
    refine congrArg₂ (fun a c => AdjState.mk a [] c) ?_ (by simp)
    refine List.map_congr_left ?_
    intro r hr
    rw [if_pos]
    rw [List.any_eq_true]
    exact ⟨r.labels, List.mem_map.mpr ⟨r, hr, rfl⟩, matchesRec_self (hnod r hr)⟩
  · decide

/-- Witness for claim C7's theorem: the scalar adjustment 1 over the
part_000 default records overwrites every record with 1. -/
theorem scalar_adjustment_overwrites_witness :
    adjustParamRecs sdMeta p0Defaults (Adj.scalar (Raw.num 1)) =
      ⟨p0Defaults.map (fun r => ⟨r.labels, 1⟩), [],
       p0Defaults.map (fun r => (r.labels, 1))⟩ :=
  scalar_adjustment_overwrites.1 sdMeta p0Defaults 1 (by decide) (by decide)

end ParamTools

namespace ParamTools

/-- Claim C5: a non-numeric adjustment value for a numeric parameter is
rejected with a type-coercion error and leaves the records untouched; an
adjustment value below the declared minimum is rejected with a range
violation and leaves the records untouched; the exhibited "higher" and -1
adjustments of src/unnamed/part_000 behave exactly so at the store level. -/
theorem adjust_rejects_bad_values :
    (∀ (meta : ParamMeta) (recs : List VRec) (lbls : List (String × LVal))
        (s : String), parseRat s = none →
        adjustParamRecs meta recs (Adj.partials [⟨lbls, Raw.str s⟩]) =
          ⟨recs, [VError.typeCoercion s], []⟩) ∧
    (∀ (meta : ParamMeta) (recs : List VRec) (lbls : List (String × LVal))
        (raw : Raw) (v mn : Rat), coerceNum raw = some v →
        meta.vmin = some mn → v < mn →
        adjustParamRecs meta recs (Adj.partials [⟨lbls, raw⟩]) =
          ⟨recs, [VError.rangeMin lbls v mn], []⟩) ∧
    ((adjust none [] p0ZeroStore
        [("standard_deduction", Adj.scalar (Raw.str "higher"))] true
        true).store = p0ZeroStore ∧
      (adjust none [] p0ZeroStore
        [("standard_deduction", Adj.partials
          [⟨[("marital_status", LVal.s "single"), ("year", LVal.i 2025)],
            Raw.num (-1)⟩])] true true).store = p0ZeroStore) := by
  refine ⟨?_, ?_, by decide, by decide⟩
  · intro meta recs lbls s hs
    simp [adjustParamRecs, stepPartial, coerceNum, hs, rawText]
  · intro meta recs lbls raw v mn hc hmn hlt
    simp [adjustParamRecs, stepPartial, hc, rangeError, hmn, hlt]

/-- Witness for claim C5's theorem: the string "higher" fails coercion and
the value -1 violates the declared minimum 0 of the exhibited schema. -/
theorem adjust_rejects_bad_values_witness :
    adjustParamRecs sdMeta p0Defaults
        (Adj.partials [⟨[], Raw.str "higher"⟩]) =
      ⟨p0Defaults, [VError.typeCoercion "higher"], []⟩ ∧
    adjustParamRecs sdMeta p0Defaults (Adj.partials [⟨[], Raw.num (-1)⟩]) =
      ⟨p0Defaults, [VError.rangeMin [] (-1) 0], []⟩ :=
  ⟨adjust_rejects_bad_values.1 sdMeta p0Defaults [] "higher" (by decide),
   adjust_rejects_bad_values.2.1 sdMeta p0Defaults [] (Raw.num (-1)) (-1) 0
     (by decide) (by decide) (by decide)⟩

/-- Claim C4: when raiseErrors is set and errors were collected, adjust
surfaces a single aggregated error grouped by parameter name while the
store keeps exactly the mutations the non-raising path would have written
(valid entries stay applied); the exhibited "higher" adjustment raises the
aggregated error and leaves the store in place. -/
theorem adjust_aggregates_errors_keeps_mutations :
    (∀ (extLabel : Option String) (domain : List Int) (store : Store)
        (adjs : List (String × Adj)),
        (adjust extLabel domain store adjs true true).store =
          (adjust extLabel domain store adjs false true).store ∧
        ((adjustCore extLabel domain true store adjs).2 ≠ [] →
          (adjust extLabel domain store adjs true true).raised =
            some (groupErrors
              (adjustCore extLabel domain true store adjs).2))) ∧
    (adjust none [] p0ZeroStore
        [("standard_deduction", Adj.scalar (Raw.str "higher"))] true true =
      ⟨p0ZeroStore,
       some [("standard_deduction", [VError.typeCoercion "higher"])],
       List.replicate 6 ("standard_deduction",
         VError.typeCoercion "higher")⟩) := by
  refine ⟨?_, by decide⟩
  intro extLabel domain store adjs
  refine ⟨rfl, ?_⟩
  intro hne
  simp [adjust, hne, List.isEmpty_iff]

/-- Witness for claim C4's theorem: the exhibited "higher" adjustment
collects errors, so the aggregated error grouped by parameter name is
surfaced. -/
theorem adjust_aggregates_errors_keeps_mutations_witness :
    (adjust none [] p0ZeroStore
        [("standard_deduction", Adj.scalar (Raw.str "higher"))] true
        true).raised =
      some (groupErrors (adjustCore none [] true p0ZeroStore
        [("standard_deduction", Adj.scalar (Raw.str "higher"))]).2) :=
  (adjust_aggregates_errors_keeps_mutations.1 none [] p0ZeroStore
    [("standard_deduction", Adj.scalar (Raw.str "higher"))]).2 (by decide)

end ParamTools

namespace ParamTools

/-- Claim C10: a parameter declared with zero labels and a bare scalar
default is stored as exactly one record holding only the coerced value (no
label keys), and querying it returns that single record; the exhibited
personal_exemption of src/unnamed/part_000 (scalar 0) is stored and
returned as the single record with value 0. -/
theorem scalar_default_single_record :
    (∀ (r : Raw) (q : Rat), coerceNum r = some q →
        loadValue (Sum.inl r) = some [⟨[], q⟩] ∧
        queryRecs [] [⟨[], q⟩] = [⟨[], q⟩]) ∧
    (loadValue (Sum.inl (Raw.num 0)) = some [⟨[], 0⟩] ∧
     queryRecs [] [⟨[], (0 : Rat)⟩] = [⟨[], 0⟩]) := by
  refine ⟨?_, by decide, by decide⟩
  intro r q h
  refine ⟨by simp [loadValue, h], ?_⟩
  simp [queryRecs, matchesRec]

/-- Witness for claim C10's theorem at the exhibited input: the scalar
default 0 of personal_exemption. -/
theorem scalar_default_single_record_witness :
    loadValue (Sum.inl (Raw.num 0)) = some [⟨[], 0⟩] ∧
    queryRecs [] [⟨[], (0 : Rat)⟩] = [⟨[], 0⟩] :=
  scalar_default_single_record.1 (Raw.num 0) 0 (by decide)

/-! ## Grid projection lemmas (spec section 4.5) -/

lemma combo_keys {sv : StateView} :
    ∀ (ls : List String) (c : List (String × LVal)),
      c ∈ labelCombos sv ls → c.map Prod.fst = ls := by
  intro ls
  induction ls with
  | nil =>
    intro c hc
    simp only [labelCombos, List.mem_singleton] at hc
    subst hc; rfl
  | cons l ls ih =>
    intro c hc
    simp only [labelCombos, List.mem_flatMap, List.mem_map] at hc
    obtain ⟨v, _, c0, hc0, rfl⟩ := hc
    simp [ih c0 hc0]

lemma agree_eq_of_same_keys :
    ∀ (c c' : List (String × LVal)), c.map Prod.fst = c'.map Prod.fst →
      (c'.map Prod.fst).Nodup →
      (∀ lv ∈ c, c'.lookup lv.1 = some lv.2) → c = c' := by
  intro c
  induction c with
  | nil =>
    intro c' hk _ _
    exact (List.map_eq_nil_iff.mp hk.symm).symm
  | cons lv t ih =>
    intro c' hk hn hl
    cases c' with
    | nil => simp at hk
    | cons lv' t' =>
      obtain ⟨k, v⟩ := lv
      obtain ⟨k', v'⟩ := lv'
      simp only [List.map_cons, List.cons.injEq] at hk
      obtain ⟨rfl, hkt⟩ := hk
      have hv : v = v' := by
        have := hl (k, v) (List.mem_cons_self _ _)
        rw [lookup_cons_self] at this
        exact (Option.some.inj this).symm ▸ rfl
      simp only [List.map_cons, List.nodup_cons] at hn
      have ht : t = t' := by
        refine ih t' hkt hn.2 ?_
        intro lv2 hlv2
        have hmem : lv2.1 ∈ t.map Prod.fst :=
          List.mem_map.mpr ⟨lv2, hlv2, rfl⟩
        have hne : lv2.1 ≠ k := by
          rintro rfl
          exact hn.1 (hkt ▸ hmem)
        have := hl lv2 (List.mem_cons_of_mem _ hlv2)
        rwa [lookup_cons_ne v' t' hne] at this
      rw [hv, ht]

lemma matchesRec_combo_iff {sv : StateView} {ls : List String}
    (hn : ls.Nodup) {c : List (String × LVal)}
    (hc : c ∈ labelCombos sv ls) {r : VRec}
    (hr : r.labels ∈ labelCombos sv ls) :
    matchesRec c r = true ↔ r.labels = c := by
  constructor
  · intro hm
    have h1 := combo_keys ls c hc
    have h2 := @combo_keys sv ls r.labels hr
    have hagree := matchesRec_iff.mp hm
    exact (agree_eq_of_same_keys c r.labels (h1.trans h2.symm)
      (h2 ▸ hn) (fun lv hlv => hagree lv hlv)).symm
  · intro he
    have h2 := @combo_keys sv ls r.labels hr
    have : matchesRec r.labels r = true := matchesRec_self (h2 ▸ hn)
    rwa [he] at this

lemma findValue_eq {sv : StateView} {ls : List String} {recs : List VRec}
    (hn : ls.Nodup) (h1 : ∀ r ∈ recs, r.labels ∈ labelCombos sv ls)
    (h2 : (recs.map (fun r => r.labels)).Nodup)
    {c : List (String × LVal)} (hc : c ∈ labelCombos sv ls) {r0 : VRec}
    (hr0 : r0 ∈ recs) (he : r0.labels = c) :
    findValue recs c = some r0.value := by
  cases hf : recs.find? (fun r => matchesRec c r) with
  | none =>
    exfalso
    have := List.find?_eq_none.mp hf r0 hr0
    exact this ((matchesRec_combo_iff hn hc (h1 r0 hr0)).mpr he)
  | some r1 =>
    have hmem := List.mem_of_find?_eq_some hf
    have hmr := List.find?_some hf
    have hl1 : r1.labels = c :=
      (matchesRec_combo_iff hn hc (h1 r1 hmem)).mp hmr
    have : r1 = r0 :=
      List.inj_on_of_nodup_map h2 hmem hr0 (hl1.trans he.symm)
    rw [findValue, hf, this]
    rfl

lemma mapM_some_eq {α β : Type _} (f : α → Option β) (d0 : β) :
    ∀ (l : List α) (out : List β), l.mapM f = some out →
      out = l.map (fun a => (f a).getD d0) := by
  intro l
  induction l with
  | nil =>
    intro out h
    simp only [List.mapM_nil, pure, Option.some.injEq] at h
    simp [← h]
  | cons a l ih =>
    intro out h
    rw [List.mapM_cons] at h
    cases hf : f a with
    | none => rw [hf] at h; simp at h
    | some b =>
      rw [hf] at h
      cases hm : l.mapM f with
      | none => rw [hm] at h; simp at h
      | some out' =>
        rw [hm] at h
        simp only [Option.bind_some, Option.map_some', bind, pure,
          Option.bind, Option.some.injEq] at h
        rw [List.map_cons, ← h, ih out' hm, hf]
        rfl

lemma mapM_isSome {α β : Type _} (f : α → Option β) :
    ∀ (l : List α), (∀ a ∈ l, (f a).isSome) → (l.mapM f).isSome := by
  intro l
  induction l with
  | nil => intro _; rfl
  | cons a l ih =>
    intro h
    rw [List.mapM_cons]
    cases hf : f a with
    | none =>
      have := h a (List.mem_cons_self _ _)
      rw [hf] at this; cases this
    | some b =>
      have h2 := ih (fun x hx => h x (List.mem_cons_of_mem _ hx))
      cases hm : l.mapM f with
      | none => rw [hm] at h2; cases h2
      | some out => simp [bind, Option.bind, pure]

lemma zip_self_map {α β : Type _} (h : α → β) :
    ∀ (l : List α), l.zip (l.map h) = l.map (fun a => (a, h a)) := by
  intro l
  induction l with
  | nil => rfl
  | cons a l ih => simp [List.zip_cons_cons, ih]

end ParamTools

namespace ParamTools

/-- Claim C3: under a fixed StateView, for a parameter whose records cover
exactly the state's label combinations (fully extended store with unique
label tuples), the grid projection succeeds and fromGrid of toGrid
reproduces the exact record set, one full record per grid cell labeled
with every varying label; the exhibited part_000 projection round-trips
to the exact default records. -/
theorem grid_round_trip :
    (∀ (sv : StateView) (ls : List String) (recs : List VRec),
        ls.Nodup →
        (∀ r ∈ recs, r.labels ∈ labelCombos sv ls) →
        ((recs.map (fun r => r.labels)).Nodup) →
        (∀ c ∈ labelCombos sv ls, ∃ r ∈ recs, r.labels = c) →
        (toGrid sv ls recs).isSome ∧
        ∀ grid, toGrid sv ls recs = some grid →
          ((fromGrid sv ls grid).length = grid.length ∧
           (∀ r ∈ fromGrid sv ls grid, r.labels.map Prod.fst = ls) ∧
           ∀ r, r ∈ fromGrid sv ls grid ↔ r ∈ recs)) ∧
    (toGrid p0State ["year", "marital_status"] p0Defaults = some p0Grid ∧
     fromGrid p0State ["year", "marital_status"] p0Grid = p0Defaults) := by
  refine ⟨?_, by decide, by decide⟩
  intro sv ls recs hn h1 h2 h3
  have hsome : ∀ c ∈ labelCombos sv ls, (findValue recs c).isSome := by
    intro c hc
    obtain ⟨r0, hr0, he⟩ := h3 c hc
    rw [findValue_eq hn h1 h2 hc hr0 he]
    rfl
  constructor
  · exact mapM_isSome _ _ hsome
  · intro grid hgrid
    have hgr : grid = (labelCombos sv ls).map
        (fun c => (findValue recs c).getD 0) :=
      mapM_some_eq _ 0 _ _ hgrid
    have hfg : fromGrid sv ls grid = (labelCombos sv ls).map
        (fun c => (⟨c, (findValue recs c).getD 0⟩ : VRec)) := by
      rw [fromGrid, hgr, zip_self_map]
      rw [List.map_map]
      rfl
    refine ⟨?_, ?_, ?_⟩
    · rw [hfg, hgr]; simp
    · intro r hr
      rw [hfg] at hr
      obtain ⟨c, hc, rfl⟩ := List.mem_map.mp hr
      exact combo_keys ls c hc
    · intro r
      rw [hfg]
      constructor
      · intro hr
        obtain ⟨c, hc, rfl⟩ := List.mem_map.mp hr
        obtain ⟨r0, hr0, he⟩ := h3 c hc
        rw [findValue_eq hn h1 h2 hc hr0 he]
        have : (⟨c, (some r0.value).getD 0⟩ : VRec) = r0 := by
          rw [← he]
          rfl
        rw [this]
        exact hr0
      · intro hr
        refine List.mem_map.mpr ⟨r.labels, h1 r hr, ?_⟩
        rw [findValue_eq hn h1 h2 (h1 r hr) hr rfl]
        rfl

/-- Witness for claim C3's theorem at the exhibited part_000 input: the
projection of the six default records over the active state succeeds. -/
theorem grid_round_trip_witness :
    (toGrid p0State ["year", "marital_status"] p0Defaults).isSome :=
  (grid_round_trip.1 p0State ["year", "marital_status"] p0Defaults
    (by decide) (by decide) (by decide) (by decide)).1

end ParamTools

namespace ParamTools

/-! ## Re-extension lemmas (spec section 4.4) -/

lemma extVal_mkRec {ext : String} {g : List (String × LVal)}
    (hg : ∀ lv ∈ g, lv.1 ≠ ext) (d : Int) (v : Rat) :
    extVal ext (mkRec ext g d v) = some d := by
  have h : (g ++ [(ext, LVal.i d)]).lookup ext = some (LVal.i d) := by
    rw [lookup_append_left_none (fun p hp => hg p hp), lookup_cons_self]
  simp only [extVal, mkRec, lookupL, h]

lemma extractPairs_mkRec {ext : String} {g : List (String × LVal)}
    (hg : ∀ lv ∈ g, lv.1 ≠ ext) :
    ∀ pairs : List (Int × Rat),
      extractPairs ext (pairs.map (fun p => mkRec ext g p.1 p.2)) = pairs := by
  intro pairs
  induction pairs with
  | nil => rfl
  | cons p t ih =>
    simp only [List.map_cons, extractPairs, List.filterMap_cons,
      extVal_mkRec hg p.1 p.2, Option.map_some']
    rw [extractPairs] at ih
    rw [ih]
    rfl

lemma firstKey_before_none {a : List (Int × Rat)} :
    ∀ {domain : List Int} {m : Int}, List.Chain' (· < ·) domain →
      firstKey a domain = some m →
      ∀ e ∈ domain, e < m → lookupPt a e = none := by
  intro domain
  induction domain with
  | nil => intro m _ h; simp [firstKey] at h
  | cons d0 rest ih =>
    intro m hchain hk e he hlt
    have hpw := List.chain'_iff_pairwise.mp hchain
    have hrest : List.Chain' (· < ·) rest :=
      List.chain'_iff_pairwise.mpr (List.Pairwise.of_cons hpw)
    cases hE : lookupPt a d0 with
    | some v =>
      simp only [firstKey, List.find?_cons, hE, Option.isSome_some] at hk
      cases hk
      rcases List.mem_cons.mp he with rfl | hr
      · exact absurd hlt (lt_irrefl e)
      · exact absurd hlt (not_lt.mpr
          (le_of_lt (List.rel_of_pairwise_cons hpw hr)))
    | none =>
      simp only [firstKey, List.find?_cons, hE, Option.isSome_none] at hk
      rcases List.mem_cons.mp he with rfl | hr
      · exact hE
      · exact ih hrest (by rw [firstKey]; exact hk) e hr hlt

lemma findSome?_isSome_of_mem {α β : Type _} {f : α → Option β} :
    ∀ {l : List α} {x : α}, x ∈ l → (f x).isSome →
      (l.findSome? f).isSome := by
  intro l
  induction l with
  | nil => intro x h; cases h
  | cons a t ih =>
    intro x hx hfx
    rw [List.findSome?_cons]
    cases hfa : f a with
    | some b => rfl
    | none =>
      rcases List.mem_cons.mp hx with rfl | hr
      · rw [hfa] at hfx; cases hfx
      · exact ih hr hfx

lemma chain'_filter {p : Int → Bool} {l : List Int}
    (h : List.Chain' (· < ·) l) : List.Chain' (· < ·) (l.filter p) :=
  List.chain'_iff_pairwise.mpr
    (List.Pairwise.filter p (List.chain'_iff_pairwise.mp h))

lemma nearestPreceding_suffix {a : List (Int × Rat)} {m d : Int} :
    ∀ {domain : List Int},
      (∀ e ∈ domain, e < m → lookupPt a e = none) →
      nearestPreceding a domain d =
        nearestPreceding a (domain.filter (fun e => m ≤ e)) d := by
  have key : ∀ (dom : List Int),
      (∀ e ∈ dom, e < m → lookupPt a e = none) →
      (dom.filter (fun e => decide (e ≤ d))).filterMap (lookupPt a) =
        (dom.filter (fun e => decide (e ≤ d) && decide (m ≤ e))).filterMap
          (lookupPt a) := by
    intro dom
    induction dom with
    | nil => intro _; rfl
    | cons e0 rest ih =>
      intro hnone
      have hrest := fun e he => hnone e (List.mem_cons_of_mem _ he)
      rcases lt_or_ge e0 m with hlt | hge
      · have h0 : lookupPt a e0 = none :=
          hnone e0 (List.mem_cons_self _ _) hlt
        have hnm : decide (m ≤ e0) = false := decide_eq_false (not_le.mpr hlt)
        by_cases hd : e0 ≤ d
        · simp [List.filter_cons, decide_eq_true hd, hnm, h0,
            List.filterMap_cons]
          exact ih hrest
        · simp [List.filter_cons, decide_eq_false hd, hnm]
          exact ih hrest
      · have hm : decide (m ≤ e0) = true := decide_eq_true hge
        by_cases hd : e0 ≤ d
        · simp [List.filter_cons, decide_eq_true hd, hm,
            List.filterMap_cons]
          rw [ih hrest]
        · simp [List.filter_cons, decide_eq_false hd, hm]
          exact ih hrest
  intro domain hnone
  rw [nearestPreceding, nearestPreceding, List.filter_filter,
    key domain hnone]

lemma nearestPreceding_isSome {a : List (Int × Rat)} {domain : List Int}
    {m d : Int} (hm : m ∈ domain) (hsome : (lookupPt a m).isSome)
    (hmd : m ≤ d) : (nearestPreceding a domain d).isSome := by
  rw [nearestPreceding]
  obtain ⟨v, hv⟩ := Option.isSome_iff_exists.mp hsome
  have h1 : m ∈ domain.filter (fun e => decide (e ≤ d)) :=
    List.mem_filter.mpr ⟨hm, by simpa using hmd⟩
  have h2 : v ∈ (domain.filter (fun e => decide (e ≤ d))).filterMap
      (lookupPt a) := List.mem_filterMap.mpr ⟨m, h1, hv⟩
  rw [List.getLast?_isSome]
  exact List.ne_nil_of_mem h2

end ParamTools

namespace ParamTools

lemma extractPairs_append (ext : String) (l₁ l₂ : List VRec) :
    extractPairs ext (l₁ ++ l₂) =
      extractPairs ext l₁ ++ extractPairs ext l₂ := by
  simp [extractPairs, List.filterMap_append]

lemma lookupPt_append_left_none {A B : List (Int × Rat)} {d : Int}
    (h : ∀ p ∈ A, p.1 ≠ d) : lookupPt (A ++ B) d = lookupPt B d :=
  lookup_append_left_none h

set_option maxRecDepth 10000 in
/-- Claim C2: with extension enabled, after merging an adjustment, every
domain value of the extend dimension at or after the group's earliest
explicitly-adjusted value carries the nearest preceding explicitly-adjusted
value (not the pre-adjustment record); in particular the exhibited
adjustment (10000 at 2017, 15000 at 2020 single, 20000 at 2021 joint)
produces the grid shown in src/docs/Extend example.ipynb, overriding the
pre-adjustment defaults at later years. -/
theorem adjust_extend_inherits :
    (∀ (ext : String) (domain : List Int) (merged : List VRec)
        (a : List (Int × Rat)) (g : List (String × LVal)) (m d : Int),
        (∀ lv ∈ g, lv.1 ≠ ext) → List.Chain' (· < ·) domain →
        firstKey a domain = some m → d ∈ domain → m ≤ d →
        lookupPt (extractPairs ext (reExtendGroup ext domain merged a g)) d =
          nearestPreceding a domain d) ∧
    (((adjust (some "year") yearDomain sdStore sdAdjustment true
          true).store.lookup "standard_deduction").map (fun pd =>
        toGrid fullState ["year", "marital_status"] pd.recs) =
      some (some sdAdjustedGrid)) := by
  refine ⟨?_, by decide⟩
  intro ext domain merged a g m d hg hchain hk hd hmd
  rw [reExtendGroup, hk]
  have hkept : ∀ p ∈ extractPairs ext (merged.filter (fun r =>
      decide (tupleOf ext r = g) && keepBelow ext m r)), p.1 ≠ d := by
    intro p hp
    obtain ⟨r, hr, hmap⟩ := List.mem_filterMap.mp hp
    obtain ⟨d', hd', hpair⟩ := Option.map_eq_some'.mp hmap
    have hpred := (List.mem_filter.mp hr).2
    have hkb : keepBelow ext m r = true := ((Bool.and_eq_true _ _).mp hpred).2
    rw [keepBelow, hd'] at hkb
    have hdm : d' < m := of_decide_eq_true hkb
    have hp1 : p.1 = d' := by rw [← hpair]
    rw [hp1]
    exact fun hc => absurd (hc ▸ hdm) (not_lt.mpr hmd)
  rw [extractPairs_append, lookupPt_append_left_none hkept,
    extractPairs_mkRec hg]
  have hmdom : m ∈ domain := List.mem_of_find?_eq_some hk
  have hsome_m : (lookupPt a m).isSome := by
    have := List.find?_some hk
    simpa using this
  have hchainS : List.Chain' (· < ·) (domain.filter (fun e => m ≤ e)) :=
    chain'_filter hchain
  have hmS : m ∈ domain.filter (fun e => m ≤ e) :=
    List.mem_filter.mpr ⟨hmdom, by simp⟩
  have hdS : d ∈ domain.filter (fun e => m ≤ e) :=
    List.mem_filter.mpr ⟨hd, by simpa using hmd⟩
  have h0 : (firstExplicit a (domain.filter (fun e => m ≤ e))).isSome :=
    findSome?_isSome_of_mem hmS hsome_m
  obtain ⟨v0, hv0⟩ := Option.isSome_iff_exists.mp h0
  rw [fillGroup_lookup hchainS hdS hv0]
  rw [nearestPreceding_suffix (firstKey_before_none hchain hk)]
  have hS : (nearestPreceding a (domain.filter (fun e => m ≤ e)) d).isSome :=
    nearestPreceding_isSome hmS hsome_m hmd
  obtain ⟨w, hw⟩ := Option.isSome_iff_exists.mp hS
  rw [hw]
  rfl

/-- Witness for claim C2's theorem at a concrete input: one adjusted point
2 over the domain 1-3; the value at 3 inherits the adjusted point. -/
theorem adjust_extend_inherits_witness :
    lookupPt (extractPairs "x"
        (reExtendGroup "x" [1, 2, 3] [] [((2 : Int), (5 : Rat))] [])) 3 =
      nearestPreceding [((2 : Int), (5 : Rat))] [1, 2, 3] 3 :=
  adjust_extend_inherits.1 "x" [1, 2, 3] [] [((2 : Int), (5 : Rat))] [] 2 3
    (by simp) (by norm_num [List.chain'_cons]) (by decide) (by decide)
    (by decide)

end ParamTools

namespace ParamTools

/-! ## Membership lemmas for grouping and re-extension -/

lemma forall₂_mem_left {α β : Type _} {R : α → β → Prop} :
    ∀ {l₁ : List α} {l₂ : List β}, List.Forall₂ R l₁ l₂ →
      ∀ {a : α}, a ∈ l₁ → ∃ b ∈ l₂, R a b := by
  intro l₁ l₂ h
  induction h with
  | nil => intro a ha; cases ha
  | cons hr _ ih =>
    intro a ha
    rcases List.mem_cons.mp ha with rfl | ha2
    · exact ⟨_, List.mem_cons_self _ _, hr⟩
    · obtain ⟨b, hb, hrb⟩ := ih ha2
      exact ⟨b, List.mem_cons_of_mem _ hb, hrb⟩

lemma forall₂_mem_right {α β : Type _} {R : α → β → Prop} :
    ∀ {l₁ : List α} {l₂ : List β}, List.Forall₂ R l₁ l₂ →
      ∀ {b : β}, b ∈ l₂ → ∃ a ∈ l₁, R a b := by
  intro l₁ l₂ h
  induction h with
  | nil => intro b hb; cases hb
  | cons hr _ ih =>
    intro b hb
    rcases List.mem_cons.mp hb with rfl | hb2
    · exact ⟨_, List.mem_cons_self _ _, hr⟩
    · obtain ⟨a, ha, hra⟩ := ih hb2
      exact ⟨a, List.mem_cons_of_mem _ ha, hra⟩

lemma firstDedup_foldl_mem {α : Type _} [DecidableEq α] :
    ∀ (l : List α) (acc : List α) (x : α),
      x ∈ l.foldl (fun acc a => if a ∈ acc then acc else acc ++ [a]) acc ↔
        x ∈ acc ∨ x ∈ l := by
  intro l
  induction l with
  | nil => intro acc x; simp
  | cons a t ih =>
    intro acc x
    rw [List.foldl_cons, ih]
    by_cases ha : a ∈ acc
    · simp only [if_pos ha, List.mem_cons]
      constructor
      · rintro (hx | hx)
        · exact Or.inl hx
        · exact Or.inr (Or.inr hx)
      · rintro (hx | rfl | hx)
        · exact Or.inl hx
        · exact Or.inl ha
        · exact Or.inr hx
    · simp only [if_neg ha, List.mem_append, List.mem_singleton,
        List.mem_cons]
      tauto

lemma firstDedup_mem {α : Type _} [DecidableEq α] {l : List α} {x : α} :
    x ∈ firstDedup l ↔ x ∈ l := by
  rw [firstDedup, firstDedup_foldl_mem]
  simp

lemma groupsOf_mem {ext : String} {recs : List VRec}
    {g : List (String × LVal)} :
    g ∈ groupsOf ext recs ↔ ∃ r ∈ recs, tupleOf ext r = g := by
  rw [groupsOf, firstDedup_mem, List.mem_map]

lemma groupsOf_no_ext {ext : String} {recs : List VRec}
    {g : List (String × LVal)} (hg : g ∈ groupsOf ext recs) :
    ∀ lv ∈ g, lv.1 ≠ ext := by
  obtain ⟨r, _, rfl⟩ := groupsOf_mem.mp hg
  intro lv hlv
  have := List.of_mem_filter hlv
  simpa using this

lemma fillFrom_keys (explicit : List (Int × Rat)) :
    ∀ (ds : List Int) (cur : Rat),
      (fillFrom explicit cur ds).map Prod.fst = ds := by
  intro ds
  induction ds with
  | nil => intro cur; rfl
  | cons d0 rest ih =>
    intro cur
    rw [fillFrom]
    cases hE : lookupPt explicit d0 with
    | some v => simp [ih v]
    | none => simp [ih cur]

lemma fillGroup_keys {explicit : List (Int × Rat)} {domain : List Int}
    {p : Int × Rat} (hp : p ∈ fillGroup explicit domain) : p.1 ∈ domain := by
  rw [fillGroup] at hp
  cases h0 : firstExplicit explicit domain with
  | none => rw [h0] at hp; cases hp
  | some v0 =>
    rw [h0] at hp
    have := fillFrom_keys explicit domain v0
    rw [← this]
    exact List.mem_map.mpr ⟨p, hp, rfl⟩

lemma insertPt_keys {P : Int → Prop} {acc : List (Int × Rat)}
    {p : Int × Rat} (hacc : ∀ q ∈ acc, P q.1) (hp : P p.1) :
    ∀ q ∈ insertPt acc p, P q.1 := by
  intro q hq
  rw [insertPt] at hq
  split_ifs at hq
  · obtain ⟨q0, hq0, hq0e⟩ := List.mem_map.mp hq
    by_cases he : q0.1 = p.1
    · rw [if_pos he] at hq0e; rw [← hq0e]; exact hp
    · rw [if_neg he] at hq0e; rw [← hq0e]; exact hacc q0 hq0
  · rcases List.mem_append.mp hq with h | h
    · exact hacc q h
    · rw [List.mem_singleton.mp h]; exact hp

lemma adjustedPts_keys {ext : String} {M : Int}
    {applied : List (List (String × LVal) × Rat)}
    (happ : ∀ q ∈ applied, ∀ dp, extOfLabels ext q.1 = some dp → M ≤ dp)
    (g : List (String × LVal)) :
    ∀ pr ∈ adjustedPts ext g applied, M ≤ pr.1 := by
  rw [adjustedPts]
  suffices h : ∀ (l : List (List (String × LVal) × Rat))
      (acc : List (Int × Rat)),
      (∀ q ∈ l, ∀ dp, extOfLabels ext q.1 = some dp → M ≤ dp) →
      (∀ pr ∈ acc, M ≤ pr.1) →
      ∀ pr ∈ l.foldl (fun acc a =>
        if touchesGroup ext g a.1 then
          match extOfLabels ext a.1 with
          | some d => insertPt acc (d, a.2)
          | none => acc
        else acc) acc, M ≤ pr.1 by
    exact h applied [] happ (by intro pr hpr; cases hpr)
  intro l
  induction l with
  | nil => intro acc _ hacc pr hpr; exact hacc pr hpr
  | cons q t ih =>
    intro acc hl hacc pr hpr
    rw [List.foldl_cons] at hpr
    refine ih _ (fun q2 hq2 => hl q2 (List.mem_cons_of_mem _ hq2)) ?_ pr hpr
    split_ifs
    · cases hE : extOfLabels ext q.1 with
      | some dd =>
        exact insertPt_keys hacc (hl q (List.mem_cons_self _ _) dd hE)
      | none => exact hacc
    · exact hacc

end ParamTools

namespace ParamTools

/-! ## Frame lemmas: records before the earliest adjusted value -/

lemma stepPartial_recs_cases (meta : ParamMeta) (st : AdjState)
    (p : PartialRec) :
    (stepPartial meta st p).recs = st.recs ∨
      ∃ v, coerceNum p.value = some v ∧
        (stepPartial meta st p).recs = applyPartial p.labels v st.recs := by
  cases hc : coerceNum p.value with
  | none => exact Or.inl (by simp [stepPartial, hc])
  | some v =>
    cases hre : rangeError meta p.labels v with
    | some e => exact Or.inl (by simp [stepPartial, hc, hre])
    | none => exact Or.inr ⟨v, rfl, by simp [stepPartial, hc, hre]⟩

lemma merge_keeps_below {ext : String} {M : Int} {meta : ParamMeta} :
    ∀ (ps : List PartialRec),
      (∀ p ∈ ps, ∃ dp, extOfLabels ext p.labels = some dp ∧ M ≤ dp) →
      ∀ (st : AdjState) (recs0 : List VRec),
        List.Forall₂ (fun r0 r => r.labels = r0.labels ∧
          (∀ d', extVal ext r0 = some d' → d' < M → r = r0)) recs0 st.recs →
        List.Forall₂ (fun r0 r => r.labels = r0.labels ∧
          (∀ d', extVal ext r0 = some d' → d' < M → r = r0)) recs0
          (List.foldl (stepPartial meta) st ps).recs := by
  intro ps
  induction ps with
  | nil => intro _ st recs0 h; exact h
  | cons p ps ih =>
    intro hp st recs0 hF
    rw [List.foldl_cons]
    refine ih (fun q hq => hp q (List.mem_cons_of_mem _ hq)) _ recs0 ?_
    obtain ⟨dp, hdp, hMdp⟩ := hp p (List.mem_cons_self _ _)
    rcases stepPartial_recs_cases meta st p with hsame | ⟨v, _, happly⟩
    · rw [hsame]; exact hF
    · rw [happly, applyPartial]
      rw [List.forall₂_map_right_iff]
      refine List.Forall₂.imp ?_ hF
      intro r0 r hR
      obtain ⟨hlab, hlow⟩ := hR
      constructor
      · by_cases hm : matchesRec p.labels r
        · rw [if_pos hm]; exact hlab
        · rw [if_neg hm]; exact hlab
      · intro d' hd' hd'M
        have hreq : r = r0 := hlow d' hd' hd'M
        subst hreq
        have hnm : ¬ (matchesRec p.labels r = true) := by
          intro hm
          have hagree := matchesRec_iff.mp hm
          have hmem : (ext, LVal.i dp) ∈ p.labels := by
            rw [extOfLabels] at hdp
            cases hl : lookupL p.labels ext with
            | none => rw [hl] at hdp; cases hdp
            | some lv =>
              rw [hl] at hdp
              cases lv with
              | i n =>
                cases hdp
                exact mem_of_lookupSome hl
              | s s0 => cases hdp
          have := hagree (ext, LVal.i dp) hmem
          have hev : extVal ext r = some dp := by
            rw [extVal, hlab, this]
          rw [hd'] at hev
          cases hev
          exact absurd hd'M (not_lt.mpr hMdp)
        rw [if_neg hnm]

lemma applied_from_partials {meta : ParamMeta} :
    ∀ (ps : List PartialRec) (st : AdjState),
      ∀ q ∈ (List.foldl (stepPartial meta) st ps).applied,
        q ∈ st.applied ∨ ∃ p ∈ ps, q.1 = p.labels := by
  intro ps
  induction ps with
  | nil => intro st q hq; exact Or.inl hq
  | cons p ps ih =>
    intro st q hq
    rw [List.foldl_cons] at hq
    rcases ih (stepPartial meta st p) q hq with hin | ⟨p', hp', he⟩
    · cases hc : coerceNum p.value with
      | none =>
        simp only [stepPartial, hc] at hin
        exact Or.inl hin
      | some v =>
        cases hre : rangeError meta p.labels v with
        | some e =>
          simp only [stepPartial, hc, hre] at hin
          exact Or.inl hin
        | none =>
          simp only [stepPartial, hc, hre, List.mem_append,
            List.mem_singleton] at hin
          rcases hin with hin | rfl
          · exact Or.inl hin
          · exact Or.inr ⟨p, List.mem_cons_self _ _, rfl⟩
    · exact Or.inr ⟨p', List.mem_cons_of_mem _ hp', he⟩

end ParamTools

namespace ParamTools

lemma extVal_congr {ext : String} {r r' : VRec}
    (h : r.labels = r'.labels) : extVal ext r = extVal ext r' := by
  rw [extVal, extVal, h]

lemma reExtend_mem_below {ext : String} {domain : List Int}
    {applied : List (List (String × LVal) × Rat)} {merged : List VRec}
    {M : Int}
    (happ : ∀ q ∈ applied, ∀ dp, extOfLabels ext q.1 = some dp → M ≤ dp)
    {r : VRec} {dr : Int} (hr : extVal ext r = some dr) (hdr : dr < M) :
    (r ∈ reExtendParam ext domain applied merged ↔ r ∈ merged) := by
  rw [reExtendParam, List.mem_flatMap]
  constructor
  · rintro ⟨g, hgmem, hrg⟩
    rw [reExtendGroup] at hrg
    cases hk : firstKey (adjustedPts ext g applied) domain with
    | none =>
      rw [hk] at hrg
      exact List.mem_of_mem_filter hrg
    | some m =>
      rw [hk] at hrg
      rcases List.mem_append.mp hrg with h | h
      · exact List.mem_of_mem_filter h
      · exfalso
        obtain ⟨p, hp, hpe⟩ := List.mem_map.mp h
        have hgne := groupsOf_no_ext hgmem
        have hev : extVal ext r = some p.1 := by
          rw [← hpe]
          exact extVal_mkRec hgne p.1 p.2
        have hdd : dr = p.1 := by
          rw [hr] at hev
          exact Option.some.inj hev
        have hp1 := fillGroup_keys hp
        have hmle : m ≤ p.1 := of_decide_eq_true (List.mem_filter.mp hp1).2
        have hsome : (lookupPt (adjustedPts ext g applied) m).isSome := by
          simpa using List.find?_some hk
        obtain ⟨v, hv⟩ := Option.isSome_iff_exists.mp hsome
        have hMm : M ≤ m :=
          adjustedPts_keys happ g (m, v) (mem_of_lookupSome hv)
        omega
  · intro hrm
    refine ⟨tupleOf ext r, groupsOf_mem.mpr ⟨r, hrm, rfl⟩, ?_⟩
    rw [reExtendGroup]
    cases hk : firstKey (adjustedPts ext (tupleOf ext r) applied) domain with
    | none => exact List.mem_filter.mpr ⟨hrm, by simp⟩
    | some m =>
      refine List.mem_append.mpr (Or.inl ?_)
      refine List.mem_filter.mpr ⟨hrm, ?_⟩
      have hsome :
          (lookupPt (adjustedPts ext (tupleOf ext r) applied) m).isSome := by
        simpa using List.find?_some hk
      obtain ⟨v, hv⟩ := Option.isSome_iff_exists.mp hsome
      have hMm : M ≤ m :=
        adjustedPts_keys happ _ (m, v) (mem_of_lookupSome hv)
      have hkb : keepBelow ext m r = true := by
        rw [keepBelow, hr]
        exact decide_eq_true (lt_of_lt_of_le hdr hMm)
      simp [hkb]

set_option maxRecDepth 10000 in
/-- Claim C9: with extension enabled, stored records at extend-dimension
values strictly below the smallest explicitly-adjusted extend value are
left unchanged by the whole merge-and-re-extend pass (adjustments propagate
only forward); in particular the exhibited rows 2013-2016 of the Extend
notebook keep their pre-adjustment values 6350/12700 after adjusting 2017
and later. -/
theorem adjust_preserves_before_first :
    (∀ (ext : String) (domain : List Int) (meta : ParamMeta)
        (recs0 : List VRec) (ps : List PartialRec) (M : Int) (r : VRec)
        (dr : Int),
        (∀ p ∈ ps, ∃ dp, extOfLabels ext p.labels = some dp ∧ M ≤ dp) →
        extVal ext r = some dr → dr < M →
        (r ∈ reExtendParam ext domain
            (adjustParamRecs meta recs0 (Adj.partials ps)).applied
            (adjustParamRecs meta recs0 (Adj.partials ps)).recs ↔
          r ∈ recs0)) ∧
    (∀ y ∈ ([2013, 2014, 2015, 2016] : List Int),
        ((adjust (some "year") yearDomain sdStore sdAdjustment true
            true).store.lookup "standard_deduction").map (fun pd =>
          (queryRecs [("year", LVal.i y)] pd.recs).map (fun r => r.value)) =
        ((sdStore.lookup "standard_deduction").map (fun pd =>
          (queryRecs [("year", LVal.i y)] pd.recs).map
            (fun r => r.value)))) := by
  refine ⟨?_, by decide⟩
  intro ext domain meta recs0 ps M r dr hp hr hdr
  have hfold : adjustParamRecs meta recs0 (Adj.partials ps) =
      List.foldl (stepPartial meta) ⟨recs0, [], []⟩ ps := rfl
  have happlied : ∀ q ∈ (adjustParamRecs meta recs0
      (Adj.partials ps)).applied,
      ∀ dp, extOfLabels ext q.1 = some dp → M ≤ dp := by
    intro q hq dp hdp
    rw [hfold] at hq
    rcases applied_from_partials ps ⟨recs0, [], []⟩ q hq with hin | ⟨p, hpp, he⟩
    · cases hin
    · obtain ⟨dp', hdp', hMdp'⟩ := hp p hpp
      rw [he, hdp'] at hdp
      cases hdp
      exact hMdp'
  rw [reExtend_mem_below happlied hr hdr]
  have hF : List.Forall₂ (fun r0 r2 => r2.labels = r0.labels ∧
      (∀ d', extVal ext r0 = some d' → d' < M → r2 = r0)) recs0
      (adjustParamRecs meta recs0 (Adj.partials ps)).recs := by
    rw [hfold]
    refine merge_keeps_below ps hp ⟨recs0, [], []⟩ recs0 ?_
    exact List.forall₂_same.mpr (fun a _ => ⟨rfl, fun _ _ _ => rfl⟩)
  constructor
  · intro hmem
    obtain ⟨r0, hr0, hlab, hlow⟩ := forall₂_mem_right hF hmem
    have hr0e : extVal ext r0 = some dr := by
      rw [← extVal_congr hlab]
      exact hr
    have hre := hlow dr hr0e hdr
    rw [hre]
    exact hr0
  · intro hmem
    obtain ⟨r', hr', hlab, hlow⟩ := forall₂_mem_left hF hmem
    have hre := hlow dr hr hdr
    rw [← hre]
    exact hr'

/-- Witness for claim C9's theorem: one record at extend value 1 is
untouched by an adjustment whose earliest adjusted extend value is 2. -/
theorem adjust_preserves_before_first_witness :
    ((⟨[("x", LVal.i 1)], (7 : Rat)⟩ : VRec) ∈ reExtendParam "x" [1, 2, 3]
        (adjustParamRecs ⟨["x"], none, none⟩ [⟨[("x", LVal.i 1)], 7⟩]
          (Adj.partials [⟨[("x", LVal.i 2)], Raw.num 9⟩])).applied
        (adjustParamRecs ⟨["x"], none, none⟩ [⟨[("x", LVal.i 1)], 7⟩]
          (Adj.partials [⟨[("x", LVal.i 2)], Raw.num 9⟩])).recs ↔
      (⟨[("x", LVal.i 1)], (7 : Rat)⟩ : VRec) ∈
        [(⟨[("x", LVal.i 1)], (7 : Rat)⟩ : VRec)]) :=
  adjust_preserves_before_first.1 "x" [1, 2, 3] ⟨["x"], none, none⟩
    [⟨[("x", LVal.i 1)], 7⟩] [⟨[("x", LVal.i 2)], Raw.num 9⟩] 2
    ⟨[("x", LVal.i 1)], 7⟩ 1
    (by intro p hp
        rcases List.mem_singleton.mp hp with rfl
        exact ⟨2, by decide, by decide⟩)
    (by decide) (by decide)

end ParamTools

namespace ParamTools

/-! ## Idempotence of extension (spec sections 4.2 and 8) -/

lemma firstDedup_foldl_nodup {α : Type _} [DecidableEq α] :
    ∀ (l : List α) (acc : List α), acc.Nodup →
      (l.foldl (fun acc a => if a ∈ acc then acc else acc ++ [a])
        acc).Nodup := by
  intro l
  induction l with
  | nil => intro acc h; exact h
  | cons a t ih =>
    intro acc h
    rw [List.foldl_cons]
    refine ih _ ?_
    by_cases ha : a ∈ acc
    · rw [if_pos ha]; exact h
    · rw [if_neg ha]
      simp [List.nodup_append, h, ha]

lemma firstDedup_nodup {α : Type _} [DecidableEq α] (l : List α) :
    (firstDedup l).Nodup :=
  firstDedup_foldl_nodup l [] List.nodup_nil

lemma foldl_dedup_replicate {α : Type _} [DecidableEq α] (g : α) :
    ∀ (n : Nat) (acc : List α),
      (List.replicate n g).foldl
          (fun acc a => if a ∈ acc then acc else acc ++ [a]) acc =
        if n = 0 then acc else (if g ∈ acc then acc else acc ++ [g]) := by
  intro n
  induction n with
  | zero => intro acc; rfl
  | succ n ih =>
    intro acc
    rw [List.replicate_succ, List.foldl_cons, ih]
    by_cases hg : g ∈ acc
    · rw [if_pos hg]
      by_cases hn : n = 0
      · simp [hn, hg]
      · simp [hn, hg]
    · rw [if_neg hg]
      by_cases hn : n = 0
      · simp [hn]
      · have : g ∈ acc ++ [g] :=
          List.mem_append.mpr (Or.inr (List.mem_singleton.mpr rfl))
        simp [hn, this]

lemma foldl_dedup_flatMap_replicate {α : Type _} [DecidableEq α]
    (n : α → Nat) :
    ∀ (gs : List α) (acc : List α), gs.Nodup → (∀ g ∈ gs, g ∉ acc) →
      ((gs.flatMap (fun g => List.replicate (n g) g)).foldl
          (fun acc a => if a ∈ acc then acc else acc ++ [a]) acc) =
        acc ++ gs.filter (fun g => decide (n g ≠ 0)) := by
  intro gs
  induction gs with
  | nil => intro acc _ _; simp
  | cons g0 rest ih =>
    intro acc hnd hnacc
    simp only [List.flatMap_cons, List.foldl_append]
    rw [foldl_dedup_replicate]
    simp only [List.nodup_cons] at hnd
    by_cases hn : n g0 = 0
    · rw [if_pos hn]
      rw [ih acc hnd.2 (fun g hg => hnacc g (List.mem_cons_of_mem _ hg))]
      simp [List.filter_cons, hn]
    · rw [if_neg hn, if_neg (hnacc g0 (List.mem_cons_self _ _))]
      rw [ih (acc ++ [g0]) hnd.2 ?_]
      · simp [List.filter_cons, hn]
      · intro g hg
        simp only [List.mem_append, List.mem_singleton]
        rintro (h | rfl)
        · exact hnacc g (List.mem_cons_of_mem _ hg) h
        · exact hnd.1 hg

lemma tupleOf_fix {ext : String} {g : List (String × LVal)}
    (hg : ∀ lv ∈ g, lv.1 ≠ ext) :
    g.filter (fun lv => decide (lv.1 ≠ ext)) = g :=
  List.filter_eq_self.mpr (fun lv hlv => decide_eq_true (hg lv hlv))

lemma tupleOf_mkRec {ext : String} {g : List (String × LVal)}
    (hg : ∀ lv ∈ g, lv.1 ≠ ext) (d : Int) (v : Rat) :
    tupleOf ext (mkRec ext g d v) = g := by
  rw [tupleOf, mkRec]
  simp only [List.filter_append]
  rw [tupleOf_fix hg]
  simp

lemma map_const_replicate {α β : Type _} (b : β) :
    ∀ (l : List α), l.map (fun _ => b) = List.replicate l.length b := by
  intro l
  induction l with
  | nil => rfl
  | cons a t ih => simp [ih, List.replicate_succ]

end ParamTools

namespace ParamTools

lemma fillFrom_covered {pairs : List (Int × Rat)} :
    ∀ (ds : List Int) (cur : Rat), (∀ d ∈ ds, (lookupPt pairs d).isSome) →
      fillFrom pairs cur ds =
        ds.map (fun d => (d, (lookupPt pairs d).getD 0)) := by
  intro ds
  induction ds with
  | nil => intro cur _; rfl
  | cons d0 rest ih =>
    intro cur hcov
    rw [fillFrom]
    cases hE : lookupPt pairs d0 with
    | none =>
      have := hcov d0 (List.mem_cons_self _ _)
      rw [hE] at this; cases this
    | some v =>
      dsimp only
      rw [ih v (fun d hd => hcov d (List.mem_cons_of_mem _ hd)),
        List.map_cons, hE]
      rfl

lemma assoc_pairs_eq :
    ∀ (pairs : List (Int × Rat)) (ds : List Int), ds.Nodup →
      pairs.map Prod.fst = ds →
      ds.map (fun d => (d, (lookupPt pairs d).getD 0)) = pairs := by
  intro pairs
  induction pairs with
  | nil =>
    intro ds _ hk
    rw [← hk]
    rfl
  | cons p t ih =>
    intro ds hnd hk
    obtain ⟨k, v⟩ := p
    cases ds with
    | nil => simp at hk
    | cons d0 rest =>
      simp only [List.map_cons, List.cons.injEq] at hk
      obtain ⟨hk0, hkt⟩ := hk
      subst hk0
      simp only [List.nodup_cons] at hnd
      rw [List.map_cons]
      have h0 : lookupPt ((k, v) :: t) k = some v := lookup_cons_self k v t
      rw [h0]
      have ht : rest.map (fun d => (d, (lookupPt ((k, v) :: t) d).getD 0)) =
          rest.map (fun d => (d, (lookupPt t d).getD 0)) := by
        refine List.map_congr_left ?_
        intro d hd
        have hne : d ≠ k := by
          rintro rfl
          exact hnd.1 hd
        rw [show lookupPt ((k, v) :: t) d = lookupPt t d from
          lookup_cons_ne v t hne]
      rw [ht, ih rest hnd.2 hkt]
      rfl

lemma fillGroup_self {pairs : List (Int × Rat)} {ds : List Int}
    (hnd : ds.Nodup) (hk : pairs.map Prod.fst = ds) :
    fillGroup pairs ds = pairs := by
  cases pairs with
  | nil =>
    have : ds = [] := by rw [← hk]; rfl
    subst this
    rfl
  | cons p t =>
    obtain ⟨k, v⟩ := p
    cases ds with
    | nil => simp at hk
    | cons d0 rest =>
      simp only [List.map_cons, List.cons.injEq] at hk
      obtain ⟨hk0, hkt⟩ := hk
      subst hk0
      have h0 : firstExplicit ((k, v) :: t) (k :: rest) = some v := by
        rw [firstExplicit, List.findSome?_cons]
        have hs : lookupPt ((k, v) :: t) k = some v := lookup_cons_self k v t
        rw [hs]
      rw [fillGroup, h0]
      dsimp only
      have hcov : ∀ d ∈ k :: rest, (lookupPt ((k, v) :: t) d).isSome := by
        intro d hd
        refine lookupSome_of_mem_keys ?_
        simp only [List.map_cons]
        rw [hkt]
        exact hd
      rw [fillFrom_covered (k :: rest) v hcov]
      exact assoc_pairs_eq ((k, v) :: t) (k :: rest) hnd
        (by simp [hkt])

lemma flatMap_eq_nil_all {α β : Type _} {F : α → List β} :
    ∀ {gs : List α}, (∀ g ∈ gs, F g = []) → gs.flatMap F = [] := by
  intro gs
  induction gs with
  | nil => intro _; rfl
  | cons g0 rest ih =>
    intro h
    rw [List.flatMap_cons, h g0 (List.mem_cons_self _ _), List.nil_append]
    exact ih (fun g hg => h g (List.mem_cons_of_mem _ hg))

lemma flatMap_eq_single {α β : Type _} {F : α → List β} {g : α} :
    ∀ {gs : List α}, gs.Nodup → g ∈ gs →
      (∀ g2 ∈ gs, g2 ≠ g → F g2 = []) → gs.flatMap F = F g := by
  intro gs
  induction gs with
  | nil => intro _ h; cases h
  | cons g0 rest ih =>
    intro hnd hmem hz
    simp only [List.nodup_cons] at hnd
    rw [List.flatMap_cons]
    rcases List.mem_cons.mp hmem with rfl | hr
    · have : rest.flatMap F = [] := by
        refine flatMap_eq_nil_all ?_
        intro g2 hg2
        refine hz g2 (List.mem_cons_of_mem _ hg2) ?_
        rintro rfl
        exact hnd.1 hg2
      rw [this, List.append_nil]
    · have h0 : F g0 = [] := by
        refine hz g0 (List.mem_cons_self _ _) ?_
        rintro rfl
        exact hnd.1 hr
      rw [h0, List.nil_append]
      exact ih hnd.2 hr (fun g2 hg2 => hz g2 (List.mem_cons_of_mem _ hg2))

lemma flatMap_filter_ne_nil {α β : Type _} (F : α → List β) :
    ∀ (gs : List α),
      gs.flatMap F =
        (gs.filter (fun g => decide ((F g).length ≠ 0))).flatMap F := by
  intro gs
  induction gs with
  | nil => rfl
  | cons g0 rest ih =>
    rw [List.flatMap_cons, List.filter_cons]
    by_cases hn : (F g0).length ≠ 0
    · rw [if_pos (by simpa using hn), List.flatMap_cons, ih]
    · push_neg at hn
      have h0 : F g0 = [] := List.length_eq_zero.mp hn
      rw [if_neg (by simpa using hn), h0, List.nil_append, ih]

end ParamTools

namespace ParamTools

lemma block_filterMap_self {ext : String} {g : List (String × LVal)}
    (hg : ∀ lv ∈ g, lv.1 ≠ ext) :
    ∀ pairs : List (Int × Rat),
      (pairs.map (fun p => mkRec ext g p.1 p.2)).filterMap (fun r =>
        if tupleOf ext r = g then (extVal ext r).map (fun d => (d, r.value))
        else none) = pairs := by
  intro pairs
  induction pairs with
  | nil => rfl
  | cons p t ih =>
    rw [List.map_cons, List.filterMap_cons]
    rw [if_pos (tupleOf_mkRec hg p.1 p.2), extVal_mkRec hg p.1 p.2]
    rw [ih]
    rfl

lemma block_filterMap_ne {ext : String} {g g2 : List (String × LVal)}
    (hg2 : ∀ lv ∈ g2, lv.1 ≠ ext) (hne : g2 ≠ g) :
    ∀ pairs : List (Int × Rat),
      (pairs.map (fun p => mkRec ext g2 p.1 p.2)).filterMap (fun r =>
        if tupleOf ext r = g then (extVal ext r).map (fun d => (d, r.value))
        else none) = [] := by
  intro pairs
  induction pairs with
  | nil => rfl
  | cons p t ih =>
    rw [List.map_cons, List.filterMap_cons]
    rw [if_neg (by rw [tupleOf_mkRec hg2 p.1 p.2]; exact hne)]
    exact ih

set_option maxHeartbeats 1000000 in
lemma extendParam_idem (ext : String) (domain : List Int)
    (recs : List VRec) (hnd : domain.Nodup) :
    extendParam ext domain (extendParam ext domain recs) =
      extendParam ext domain recs := by
  have hnodgs : (groupsOf ext recs).Nodup := firstDedup_nodup _
  have hnoext : ∀ g ∈ groupsOf ext recs, ∀ lv ∈ g, lv.1 ≠ ext :=
    fun g hg => groupsOf_no_ext hg
  have hmapt : ((groupsOf ext recs).flatMap (fun g =>
        (fillGroup (explicitOf ext recs g) domain).map
          (fun p => mkRec ext g p.1 p.2))).map (tupleOf ext) =
      (groupsOf ext recs).flatMap (fun g => List.replicate
        ((fillGroup (explicitOf ext recs g) domain).length) g) := by
    rw [List.map_flatMap]
    refine List.flatMap_congr ?_
    intro g hg
    rw [List.map_map]
    rw [List.map_congr_left
      (fun p _ => tupleOf_mkRec (hnoext g hg) p.1 p.2)]
    rw [map_const_replicate]
  have hgs' : groupsOf ext (extendParam ext domain recs) =
      (groupsOf ext recs).filter (fun g =>
        decide (((fillGroup (explicitOf ext recs g) domain).map
          (fun p => mkRec ext g p.1 p.2)).length ≠ 0)) := by
    rw [extendParam, groupsOf, firstDedup, hmapt]
    have := foldl_dedup_flatMap_replicate
      (fun g => (fillGroup (explicitOf ext recs g) domain).length)
      (groupsOf ext recs) [] hnodgs (by intro g _; simp)
    rw [this, List.nil_append]
    refine List.filter_congr ?_
    intro g _
    simp [List.length_map]
  have hexp : ∀ g ∈ groupsOf ext recs,
      explicitOf ext (extendParam ext domain recs) g =
        fillGroup (explicitOf ext recs g) domain := by
    intro g hg
    rw [extendParam, explicitOf, List.filterMap_flatMap]
    rw [flatMap_eq_single hnodgs hg ?_]
    · exact block_filterMap_self (hnoext g hg) _
    · intro g2 hg2 hne
      exact block_filterMap_ne (hnoext g2 hg2) hne _
  have hkeys : ∀ g, fillGroup (explicitOf ext recs g) domain ≠ [] →
      (fillGroup (explicitOf ext recs g) domain).map Prod.fst = domain := by
    intro g hne
    cases h0 : firstExplicit (explicitOf ext recs g) domain with
    | none =>
      exfalso
      apply hne
      rw [fillGroup, h0]
    | some v0 =>
      rw [fillGroup, h0]
      exact fillFrom_keys _ domain v0
  conv_lhs => rw [extendParam, hgs']
  have hcong : ∀ g ∈ (groupsOf ext recs).filter (fun g =>
      decide (((fillGroup (explicitOf ext recs g) domain).map
        (fun p => mkRec ext g p.1 p.2)).length ≠ 0)),
      (fillGroup (explicitOf ext (extendParam ext domain recs) g)
          domain).map (fun p => mkRec ext g p.1 p.2) =
        (fillGroup (explicitOf ext recs g) domain).map
          (fun p => mkRec ext g p.1 p.2) := by
    intro g hgf
    have hgmem : g ∈ groupsOf ext recs := List.mem_of_mem_filter hgf
    have hlen := of_decide_eq_true (List.mem_filter.mp hgf).2
    have hfne : fillGroup (explicitOf ext recs g) domain ≠ [] := by
      intro h
      apply hlen
      rw [h]
      rfl
    rw [hexp g hgmem, fillGroup_self hnd (hkeys g hfne)]
  rw [List.flatMap_congr hcong]
  conv_rhs => rw [extendParam]
  exact (flatMap_filter_ne_nil _ (groupsOf ext recs)).symm

end ParamTools

namespace ParamTools

/-- Claim C8: extension is idempotent: re-running the Extender on an
already-extended store is a no-op; a store with no extend dimension
declared, or a parameter whose extend dimension is not among its labels,
is returned unchanged. -/
theorem extend_idempotent :
    (∀ (ext : String) (domain : List Int) (store : Store), domain.Nodup →
        extendStore (some ext) domain (extendStore (some ext) domain store) =
          extendStore (some ext) domain store) ∧
    (∀ (domain : List Int) (store : Store),
        extendStore none domain store = store) ∧
    (∀ (ext : String) (domain : List Int) (name : String)
        (meta : ParamMeta) (recs : List VRec),
        meta.plabels.contains ext = false →
        extendStore (some ext) domain [(name, ⟨meta, recs⟩)] =
          [(name, ⟨meta, recs⟩)]) := by
  refine ⟨?_, fun _ _ => rfl, ?_⟩
  · intro ext domain store hnd
    simp only [extendStore, List.map_map]
    refine List.map_congr_left ?_
    intro p _
    dsimp only [Function.comp]
    by_cases hc : p.2.meta.plabels.contains ext = true
    · rw [if_pos hc]
      dsimp only
      rw [if_pos hc, extendParam_idem ext domain p.2.recs hnd]
    · rw [if_neg hc, if_neg hc]
  · intro ext domain name meta recs h
    simp only [extendStore, List.map_cons, List.map_nil]
    rw [if_neg (by rw [show ((name, (⟨meta, recs⟩ : ParamData)).2.meta.plabels.contains ext) = meta.plabels.contains ext from rfl, h]; simp)]

/-- Witness for claim C8's theorem: re-extending the already-extended
TaxParams store of the Extend notebook reproduces it, and a parameter not
carrying the extend label is left unchanged. -/
theorem extend_idempotent_witness :
    (extendStore (some "year") yearDomain (extendStore (some "year")
        yearDomain [("standard_deduction", ⟨sdMeta, sdDefaults⟩)]) =
      extendStore (some "year") yearDomain
        [("standard_deduction", ⟨sdMeta, sdDefaults⟩)]) ∧
    (extendStore (some "year") yearDomain
        [("personal_exemption", ⟨⟨[], some 0, none⟩, [⟨[], 0⟩]⟩)] =
      [("personal_exemption", ⟨⟨[], some 0, none⟩, [⟨[], 0⟩]⟩)]) :=
  ⟨extend_idempotent.1 "year" yearDomain
      [("standard_deduction", ⟨sdMeta, sdDefaults⟩)] (by decide),
   extend_idempotent.2.2 "year" yearDomain "personal_exemption"
      ⟨[], some 0, none⟩ [⟨[], 0⟩] (by decide)⟩

end ParamTools
